import Mathlib

/-!
Verification of the BlinkDB LSM storage engine (part-a: `storage_engine.h`,
`bloom.h`) against its natural-language specification.

Shallow embedding conventions:
* Keys are opaque byte strings compared lexicographically in the source
  (`std::string` with `<`, `<=`); the embedding is parametric in a linearly
  ordered key type `K` and is instantiated at concrete types (`Nat`,
  `String`) in witnesses.
* `std::map<string, KeyValue>` is modelled as a key-sorted association list
  with insertion (`mapInsert`) and lookup (`mapFind`) mirroring map
  assignment and `find`.
* Nullable `const char*` API arguments are modelled as `Option`.
* An SSTable's data file plus index file are modelled together as the
  association list `index` from key to the record stored at that key's
  offset; the bloom filter attached to a table is modelled as the list of
  keys that were added to it (`bloom.h` is modelled bit-exactly separately
  as `BloomFilter`; a filter with no false negatives never changes the
  result of an index lookup, it only short-circuits it).
* The detached flush thread spawned on memtable rollover and the
  synchronous flush are both run to completion in place (sequentialized);
  file I/O is assumed to succeed.
* `size_t`/`uint64_t` counters are modelled as `Nat`; no claim depends on
  64-bit wraparound.  `std::string::size()` (byte length) is modelled by
  the `byteLen` field of the `ByteSized` class.
-/

set_option linter.unusedSectionVars false

namespace BlinkDB

/-- Byte length of a key, modelling `std::string::size()` in the memtable
size accounting.  Keys are opaque byte strings; only the size in bytes is
needed. -/
class ByteSized (K : Type) where
  byteLen : K → Nat

instance : ByteSized String := ⟨String.length⟩

instance : ByteSized Nat := ⟨fun _ => 1⟩

/-- A stored record: key, value, sequence number (the source calls it
`timestamp`), and tombstone flag.  Mirrors `struct KeyValue`. -/
structure KeyValue (K : Type) where
  key : K
  value : String
  timestamp : Nat
  is_deleted : Bool
deriving DecidableEq

variable {K : Type} [LinearOrder K]

/-- Lookup in a `std::map<string, KeyValue>` modelled as an association
list: the first entry with the queried key. -/
def mapFind : List (K × KeyValue K) → K → Option (KeyValue K)
  | [], _ => none
  | (k', v) :: rest, k => if k = k' then some v else mapFind rest k

/-- `map[key] = value` on a key-sorted association list: replaces the entry
for the key when present, otherwise inserts at the sorted position. -/
def mapInsert : List (K × KeyValue K) → K → KeyValue K → List (K × KeyValue K)
  | [], k, v => [(k, v)]
  | (k', v') :: rest, k, v =>
    if k < k' then (k, v) :: (k', v') :: rest
    else if k = k' then (k, v) :: rest
    else (k', v') :: mapInsert rest k v

/-- The in-memory write buffer.  Mirrors `struct MemTable`: a key-ordered
map of records plus a byte-accurate size. -/
structure MemTable (K : Type) where
  entries : List (K × KeyValue K)
  size_bytes : Nat
deriving DecidableEq

/-- A fresh memtable (`new MemTable()`). -/
def MemTable.init : MemTable K := ⟨[], 0⟩

/-- `MemTable::put`: replace any prior record for the key, adjusting
`size_bytes` by the delta of key+value lengths. -/
def MemTable.put [ByteSized K] (m : MemTable K) (kv : KeyValue K) : MemTable K :=
  let base :=
    match mapFind m.entries kv.key with
    | some old => m.size_bytes - (ByteSized.byteLen old.key + old.value.length)
    | none => m.size_bytes
  { entries := mapInsert m.entries kv.key kv,
    size_bytes := base + (ByteSized.byteLen kv.key + kv.value.length) }

/-- `MemTable::get`. -/
def MemTable.get (m : MemTable K) (k : K) : Option (KeyValue K) :=
  mapFind m.entries k

/-- An on-disk sorted table.  `index` models the index map together with
the record each offset points at in the data file; `bloom` is the set of
keys added to the table's bloom filter (`none` models a table loaded from
an old index file with a null `bloom_filter` pointer). -/
structure SSTable (K : Type) where
  level : Nat
  id : Nat
  min_key : K
  max_key : K
  index : List (K × KeyValue K)
  bloom : Option (List K)
deriving DecidableEq

/-- A WAL record: `u8 type | u32 klen | key | (type=SET ? u32 vlen | value)`.
A well-formed WAL file is a sequence of these. -/
inductive WalEntry (K : Type) where
  | setOp (key : K) (value : String)
  | delOp (key : K)
deriving DecidableEq

/-- `CACHE_SIZE`. -/
def CACHE_SIZE : Nat := 1024

/-- `MEMTABLE_MAX_SIZE` (4 MiB). -/
def MEMTABLE_MAX_SIZE : Nat := 4 * 1024 * 1024

/-- First value stored in the LRU list for the key (the `cache_map`
lookup); the list is ordered most-recent-first. -/
def cache_find : List (K × String) → K → Option String
  | [], _ => none
  | (k', v) :: rest, k => if k = k' then some v else cache_find rest k

/-- Erase the (unique) node for a key from the LRU list; no-op when the
key is absent.  Models `cache_list.erase(it->second)`. -/
def cache_erase : List (K × String) → K → List (K × String)
  | [], _ => []
  | (k', v) :: rest, k => if k = k' then rest else (k', v) :: cache_erase rest k

/-- `StorageEngine::update_cache`: on a hit, overwrite the value and splice
the node to the front; on a miss, evict the back node when at capacity and
insert at the front. -/
def update_cache (c : List (K × String)) (k : K) (v : String) : List (K × String) :=
  match cache_find c k with
  | some _ => (k, v) :: cache_erase c k
  | none =>
    if CACHE_SIZE ≤ c.length then (k, v) :: c.dropLast
    else (k, v) :: c

/-- `StorageEngine::get_from_cache`: on a hit, splice the node to the front
and return its value; a miss leaves the cache unchanged. -/
def get_from_cache (c : List (K × String)) (k : K) : Option String × List (K × String) :=
  match cache_find c k with
  | some v => (some v, (k, v) :: cache_erase c k)
  | none => (none, c)

/-- The engine state: both memtable slots, the levelled table lists, the
sequence counter, the LRU cache and the current WAL file contents.  Mirrors
the data members of `class StorageEngine`. -/
structure StorageEngine (K : Type) where
  active_memtable : MemTable K
  immutable_memtable : Option (MemTable K)
  levels : List (List (SSTable K))
  next_timestamp : Nat
  cache_list : List (K × String)
  wal : List (WalEntry K)
deriving DecidableEq

/-- `StorageEngine::get_timestamp`: `next_timestamp.fetch_add(1)` returns
the old value and bumps the counter. -/
def StorageEngine.get_timestamp (s : StorageEngine K) : Nat × StorageEngine K :=
  (s.next_timestamp, { s with next_timestamp := s.next_timestamp + 1 })

/-- `StorageEngine::log_wal_entry`: append one record to the WAL file. -/
def StorageEngine.log_wal_entry (s : StorageEngine K) (e : WalEntry K) : StorageEngine K :=
  { s with wal := s.wal ++ [e] }

/-- The WAL record that `rotate_wal` rewrites for a memtable entry. -/
def walEntryOf (kv : KeyValue K) : WalEntry K :=
  if kv.is_deleted then WalEntry.delOp kv.key else WalEntry.setOp kv.key kv.value

/-- `StorageEngine::rotate_wal`: truncate the WAL file and rewrite one
record per entry still present in the active memtable. -/
def StorageEngine.rotate_wal (s : StorageEngine K) : StorageEngine K :=
  { s with wal := s.active_memtable.entries.map (fun p => walEntryOf p.2) }

/-- `StorageEngine::create_sstable_from_memtable`: null on an empty
memtable; otherwise a table whose `min_key`/`max_key` are the first and
last entries' keys, whose index and data hold every entry, and whose bloom
filter was fed every key.  `id` is the sequence number drawn for the file
path. -/
def create_sstable_from_memtable (m : MemTable K) (level : Nat) (id : Nat) :
    Option (SSTable K) :=
  match m.entries with
  | [] => none
  | e :: rest =>
    some { level := level, id := id,
           min_key := e.2.key,
           max_key := ((e :: rest).getLast (List.cons_ne_nil e rest)).2.key,
           index := e :: rest,
           bloom := some ((e :: rest).map Prod.fst) }

/-- `StorageEngine::flush_memtable`: take the immutable memtable out of its
slot; when non-empty serialise it as a new level-0 table appended to
`levels[0]`; then rotate the WAL. -/
def StorageEngine.flush_memtable (s : StorageEngine K) : StorageEngine K :=
  match s.immutable_memtable with
  | none => s
  | some mem =>
    let s1 : StorageEngine K := { s with immutable_memtable := none }
    let s2 : StorageEngine K :=
      if mem.entries.isEmpty then s1
      else
        let p := s1.get_timestamp
        match create_sstable_from_memtable mem 0 p.1 with
        | some t =>
          { p.2 with levels := p.2.levels.set 0 (p.2.levels.getD 0 [] ++ [t]) }
        | none => p.2
    s2.rotate_wal

/-- The rollover check at the end of `set`/`del`: when the active memtable
has reached `MEMTABLE_MAX_SIZE`, drive a flush of any occupied immutable
slot, promote the active memtable to the immutable slot, install a fresh
active memtable, and run the (detached) flush of the new immutable. -/
def StorageEngine.memtable_rollover [ByteSized K] (s : StorageEngine K) : StorageEngine K :=
  if MEMTABLE_MAX_SIZE ≤ s.active_memtable.size_bytes then
    let s1 := if s.immutable_memtable.isSome then s.flush_memtable else s
    let s2 : StorageEngine K :=
      { s1 with immutable_memtable := some s1.active_memtable,
                active_memtable := MemTable.init }
    s2.flush_memtable
  else s

/-- `StorageEngine::set`: null key or null value is rejected; otherwise
append to the WAL, update the cache, insert into the active memtable under
a fresh sequence number, and check the rollover condition. -/
def StorageEngine.set [ByteSized K] (s : StorageEngine K)
    (key : Option K) (value : Option String) : Bool × StorageEngine K :=
  match key, value with
  | some k, some v =>
    let s1 := s.log_wal_entry (WalEntry.setOp k v)
    let s2 : StorageEngine K := { s1 with cache_list := update_cache s1.cache_list k v }
    let p := s2.get_timestamp
    let s4 : StorageEngine K :=
      { p.2 with active_memtable := p.2.active_memtable.put ⟨k, v, p.1, false⟩ }
    (true, s4.memtable_rollover)
  | _, _ => (false, s)

/-- `StorageEngine::del`: null key is rejected; otherwise append a DEL
record to the WAL, evict the key from the cache, insert a tombstone into
the active memtable under a fresh sequence number, and check rollover. -/
def StorageEngine.del [ByteSized K] (s : StorageEngine K)
    (key : Option K) : Bool × StorageEngine K :=
  match key with
  | none => (false, s)
  | some k =>
    let s1 := s.log_wal_entry (WalEntry.delOp k)
    let s2 : StorageEngine K := { s1 with cache_list := cache_erase s1.cache_list k }
    let p := s2.get_timestamp
    let s4 : StorageEngine K :=
      { p.2 with active_memtable := p.2.active_memtable.put ⟨k, "", p.1, true⟩ }
    (true, s4.memtable_rollover)

/-- `StorageEngine::get_from_sstable`: a negative bloom probe (when a
filter is attached) answers absent; otherwise look the key up in the index
and decode the record at its offset, rejecting a stored key that does not
match the query. -/
def get_from_sstable (t : SSTable K) (k : K) : Option (KeyValue K) :=
  let pass :=
    match t.bloom with
    | some ks => decide (k ∈ ks)
    | none => true
  if pass then
    match mapFind t.index k with
    | some kv => if kv.key = k then some kv else none
    | none => none
  else none

/-- One iteration of the level scan in `StorageEngine::get`: probe a
candidate table whose `[min_key, max_key]` straddles the query key, and
keep the record with the strictly greatest sequence number so far
(`kv->timestamp > latest_kv->timestamp`). -/
def scan_step (k : K) (latest : Option (KeyValue K)) (t : SSTable K) :
    Option (KeyValue K) :=
  if t.min_key ≤ k ∧ k ≤ t.max_key then
    match get_from_sstable t k with
    | some kv =>
      match latest with
      | none => some kv
      | some b => if b.timestamp < kv.timestamp then some kv else some b
    | none => latest
  else latest

/-- One level of the scan in `StorageEngine::get`: the tables are iterated
newest-first (`rbegin`). -/
def scan_tables (tables : List (SSTable K)) (k : K)
    (best : Option (KeyValue K)) : Option (KeyValue K) :=
  tables.foldl (scan_step k) best

/-- The full level scan of `StorageEngine::get`, level 0 first, each
level's tables newest-first. -/
def scan_levels (levels : List (List (SSTable K))) (k : K) : Option (KeyValue K) :=
  levels.foldl (fun latest lvl => scan_tables lvl.reverse k latest) none

/-- The tail of `StorageEngine::get` once both memtables have missed:
honour the tombstone flag on the seq-max record of the level scan, and
refresh the cache on a positive answer. -/
def StorageEngine.get_levels (s : StorageEngine K) (k : K) :
    Option String × StorageEngine K :=
  match scan_levels s.levels k with
  | some kv =>
    if kv.is_deleted then (none, s)
    else (some kv.value, { s with cache_list := update_cache s.cache_list k kv.value })
  | none => (none, s)

/-- `StorageEngine::get`: null key answers absent; then cache, active
memtable, immutable memtable — each hit is answered immediately (tombstones
as absent) — and finally the level scan. -/
def StorageEngine.get (s : StorageEngine K) (key : Option K) :
    Option String × StorageEngine K :=
  match key with
  | none => (none, s)
  | some k =>
    match get_from_cache s.cache_list k with
    | (some v, c') => (some v, { s with cache_list := c' })
    | (none, _) =>
      match s.active_memtable.get k with
      | some kv =>
        if kv.is_deleted then (none, s)
        else (some kv.value, { s with cache_list := update_cache s.cache_list k kv.value })
      | none =>
        match s.immutable_memtable with
        | some imm =>
          match imm.get k with
          | some kv =>
            if kv.is_deleted then (none, s)
            else (some kv.value,
                  { s with cache_list := update_cache s.cache_list k kv.value })
          | none => s.get_levels k
        | none => s.get_levels k

/-- One step of `StorageEngine::replay_wal`: reinsert the logged operation
into the active memtable under a fresh sequence number (DEL records carry
an empty value and the tombstone flag). -/
def replay_step [ByteSized K] (s : StorageEngine K) (e : WalEntry K) : StorageEngine K :=
  let p := s.get_timestamp
  match e with
  | WalEntry.setOp k v =>
    { p.2 with active_memtable := p.2.active_memtable.put ⟨k, v, p.1, false⟩ }
  | WalEntry.delOp k =>
    { p.2 with active_memtable := p.2.active_memtable.put ⟨k, "", p.1, true⟩ }

/-- `StorageEngine::replay_wal`: replay every record of the WAL file in
file order. -/
def StorageEngine.replay_wal [ByteSized K] (s : StorageEngine K) : StorageEngine K :=
  s.wal.foldl replay_step s

/-- Sorting applied to each level's table list:
`sort(levels[i].begin(), levels[i].end(), [](a, b){ return a->min_key < b->min_key; })`.
`std::sort` with the strict comparator produces a list non-decreasing in
`min_key`; only that postcondition matters, so the model sorts with the
reflexive relation. -/
def sortByMinKey (tables : List (SSTable K)) : List (SSTable K) :=
  List.insertionSort (fun a b => a.min_key ≤ b.min_key) tables

/-- `StorageEngine::load_sstables`: attach every table found on disk to its
level list and sort each level by `min_key`.  `disk` holds, per level, the
tables whose index files parse. -/
def load_sstables (disk : List (List (SSTable K))) (level_count : Nat) :
    List (List (SSTable K)) :=
  (List.range level_count).map (fun i => sortByMinKey (disk.getD i []))

/-- The constructor `StorageEngine::StorageEngine`: fresh state with
`next_timestamp = 1` and 7 empty levels, then `replay_wal()` over the
existing WAL file, then `load_sstables()`.  Loading never touches
`next_timestamp`. -/
def StorageEngine.startup [ByteSized K] (wal : List (WalEntry K))
    (disk : List (List (SSTable K))) : StorageEngine K :=
  let s0 : StorageEngine K :=
    { active_memtable := MemTable.init, immutable_memtable := none,
      levels := List.replicate 7 [], next_timestamp := 1,
      cache_list := [], wal := wal }
  let s1 := s0.replay_wal
  { s1 with levels := load_sstables disk 7 }

/-- The per-record update of `merge_sstables`: keep the incoming record
(rebuilt under the index key) unless the map already holds a record for
that key with a sequence number at least as large. -/
def mergeStep (m : List (K × KeyValue K)) (p : K × KeyValue K) :
    List (K × KeyValue K) :=
  let r : KeyValue K := ⟨p.1, p.2.value, p.2.timestamp, p.2.is_deleted⟩
  match mapFind m p.1 with
  | none => mapInsert m p.1 r
  | some old => if old.timestamp < r.timestamp then mapInsert m p.1 r else m

/-- The `merged_data` map of `StorageEngine::merge_sstables`: every record
of every input table folded through `mergeStep`, tables in list order and
each table's records in index (key) order. -/
def mergedOf (input_tables : List (SSTable K)) : List (K × KeyValue K) :=
  input_tables.foldl (fun m t => t.index.foldl mergeStep m) []

/-- `StorageEngine::merge_sstables`: build `merged_data`; if empty, no
output; otherwise emit a single table at `next_level` whose
`min_key`/`max_key` are the first and last merged keys (computed before
tombstones are skipped), writing every merged record except tombstones
when `next_level > 0`, each written key being added to the new bloom
filter.  A sequence number is drawn for the output file path. -/
def merge_sstables (s : StorageEngine K) (input_tables : List (SSTable K))
    (next_level : Nat) : List (SSTable K) × StorageEngine K :=
  match mergedOf input_tables with
  | [] => ([], s)
  | e :: rest =>
    let p := s.get_timestamp
    let kept := (e :: rest).filter
      (fun q => !(q.2.is_deleted && decide (0 < next_level)))
    let out : SSTable K :=
      { level := next_level, id := p.1,
        min_key := e.1,
        max_key := ((e :: rest).getLast (List.cons_ne_nil e rest)).1,
        index := kept,
        bloom := some (kept.map Prod.fst) }
    ([out], p.2)

/-- Whether a level-(i+1) table's range overlaps the key span computed for
the level-i inputs: `max(min_key, table->min_key) <= min(max_key, table->max_key)`. -/
def spanOverlap (lo hi : K) (t : SSTable K) : Bool :=
  decide (max lo t.min_key ≤ min hi t.max_key)

/-- `StorageEngine::compact_level`: no-op on the last level or an empty
level; otherwise take all level-`level` tables, span
`[front->min_key, back->max_key]`, split level `level+1` into overlapping
and remaining tables, merge the inputs with the overlapping tables into
level `level+1`, and replace level `level+1` with the remaining tables
plus the merge output, sorted by `min_key`. -/
def StorageEngine.compact_level (s : StorageEngine K) (level : Nat) : StorageEngine K :=
  if s.levels.length - 1 ≤ level then s
  else
    match s.levels.getD level [] with
    | [] => s
    | t0 :: rest =>
      let tables_to_compact := t0 :: rest
      let lo := t0.min_key
      let hi := ((t0 :: rest).getLast (List.cons_ne_nil t0 rest)).max_key
      let next := s.levels.getD (level + 1) []
      let next_level_overlap := next.filter (fun t => spanOverlap lo hi t)
      let next_level_remaining := next.filter (fun t => !(spanOverlap lo hi t))
      let inputs := tables_to_compact ++ next_level_overlap
      let s1 : StorageEngine K :=
        { s with levels := (s.levels.set level []).set (level + 1) next_level_remaining }
      let q := merge_sstables s1 inputs (level + 1)
      { q.2 with
        levels :=
          q.2.levels.set (level + 1)
            (sortByMinKey (q.2.levels.getD (level + 1) [] ++ q.1)) }

/-- The bit array and hash count of `class BloomFilter` (`bloom.h`). -/
structure BloomFilter where
  num_hashes : Nat
  bits : List Bool
deriving DecidableEq

/-- `BloomFilter::hash_func`: `std::hash<std::string>{}(key) ^ (seed * 0x9e3779b9)`.
`std::hash` is implementation-defined, so the model is parametric in the
base hash `h`.  `seed` is a `uint8_t` promoted to `unsigned int` for the
multiplication, hence the product is reduced mod 2^32 before the xor. -/
def BloomFilter.hash_func (h : String → Nat) (key : String) (seed : Nat) : Nat :=
  Nat.xor (h key) ((seed * 0x9e3779b9) % 2 ^ 32)

/-- `BloomFilter::add`: set the bit at `hash_func(key, i) % bits_.size()`
for each `i < num_hashes_`. -/
def BloomFilter.add (h : String → Nat) (bf : BloomFilter) (key : String) : BloomFilter :=
  { bf with
    bits := (List.range bf.num_hashes).foldl
      (fun bs i => bs.set (BloomFilter.hash_func h key i % bs.length) true) bf.bits }

/-- `BloomFilter::possibly_contains`: true when every probed bit is set. -/
def BloomFilter.possibly_contains (h : String → Nat) (bf : BloomFilter) (key : String) : Bool :=
  (List.range bf.num_hashes).all
    (fun i => bf.bits.getD (BloomFilter.hash_func h key i % bf.bits.length) false)

/-! ### Association-list and cache lemmas -/

theorem mapFind_mapInsert_self (l : List (K × KeyValue K)) (k : K) (v : KeyValue K) :
    mapFind (mapInsert l k v) k = some v := by
  induction l with
  | nil => simp [mapInsert, mapFind]
  | cons p rest ih =>
    obtain ⟨k', v'⟩ := p
    by_cases hlt : k < k'
    · simp [mapInsert, hlt, mapFind]
    · by_cases heq : k = k'
      · simp [mapInsert, hlt, heq, mapFind]
      · simp [mapInsert, hlt, heq, mapFind, ih]

theorem mapFind_mapInsert_ne (l : List (K × KeyValue K)) (k k0 : K) (v : KeyValue K)
    (h : k ≠ k0) : mapFind (mapInsert l k0 v) k = mapFind l k := by
  induction l with
  | nil => simp [mapInsert, mapFind, h]
  | cons p rest ih =>
    obtain ⟨k', v'⟩ := p
    by_cases hlt : k0 < k'
    · simp [mapInsert, hlt, mapFind, h]
    · by_cases heq : k0 = k'
      · subst heq
        simp [mapInsert, hlt, mapFind, h]
      · by_cases hk : k = k'
        · simp [mapInsert, hlt, heq, mapFind, hk]
        · simp [mapInsert, hlt, heq, mapFind, hk, ih]

theorem mapFind_mem {l : List (K × KeyValue K)} {k : K} {v : KeyValue K}
    (h : mapFind l k = some v) : (k, v) ∈ l := by
  induction l with
  | nil => simp [mapFind] at h
  | cons p rest ih =>
    obtain ⟨k', v'⟩ := p
    by_cases hk : k = k'
    · subst hk
      simp [mapFind] at h
      simp [h]
    · simp [mapFind, hk] at h
      exact List.mem_cons_of_mem _ (ih h)

theorem MemTable.get_put [ByteSized K] (m : MemTable K) (kv : KeyValue K) (k : K) :
    (m.put kv).get k = if k = kv.key then some kv else m.get k := by
  by_cases h : k = kv.key
  · simp [MemTable.put, MemTable.get, h, mapFind_mapInsert_self]
  · simp [MemTable.put, MemTable.get, h, mapFind_mapInsert_ne _ _ _ _ h]

theorem cache_find_update_self (c : List (K × String)) (k : K) (v : String) :
    cache_find (update_cache c k v) k = some v := by
  unfold update_cache
  cases h : cache_find c k with
  | some w => simp [cache_find]
  | none =>
    by_cases hc : CACHE_SIZE ≤ c.length <;> simp [hc, cache_find]

theorem cache_find_mem {c : List (K × String)} {k : K} {v : String}
    (h : cache_find c k = some v) : (k, v) ∈ c := by
  induction c with
  | nil => simp [cache_find] at h
  | cons p rest ih =>
    obtain ⟨k', v'⟩ := p
    by_cases hk : k = k'
    · subst hk
      simp [cache_find] at h
      simp [h]
    · simp [cache_find, hk] at h
      exact List.mem_cons_of_mem _ (ih h)

theorem cache_find_erase_self (c : List (K × String)) (k : K)
    (h : (c.map Prod.fst).Nodup) : cache_find (cache_erase c k) k = none := by
  induction c with
  | nil => simp [cache_erase, cache_find]
  | cons p rest ih =>
    obtain ⟨k', v'⟩ := p
    simp only [List.map_cons, List.nodup_cons] at h
    by_cases hk : k = k'
    · subst hk
      simp only [cache_erase, if_pos rfl]
      cases hf : cache_find rest k with
      | none => exact hf
      | some w =>
        exact absurd (List.mem_map_of_mem Prod.fst (cache_find_mem hf)) h.1
    · simp [cache_erase, hk, cache_find, ih h.2]

/-! ### Frame lemmas: which fields each internal operation can touch -/

theorem rotate_wal_frame (s : StorageEngine K) :
    (s.rotate_wal.active_memtable = s.active_memtable) ∧
    (s.rotate_wal.immutable_memtable = s.immutable_memtable) ∧
    (s.rotate_wal.levels = s.levels) ∧
    (s.rotate_wal.next_timestamp = s.next_timestamp) ∧
    (s.rotate_wal.cache_list = s.cache_list) := by
  simp [StorageEngine.rotate_wal]

theorem flush_memtable_cache (s : StorageEngine K) :
    s.flush_memtable.cache_list = s.cache_list := by
  unfold StorageEngine.flush_memtable
  cases s.immutable_memtable with
  | none => rfl
  | some mem =>
    by_cases he : mem.entries.isEmpty
    · simp [he, StorageEngine.rotate_wal]
    · simp only [he]
      cases hc : create_sstable_from_memtable mem 0
          (StorageEngine.get_timestamp { s with immutable_memtable := none }).1 with
      | none => simp [hc, StorageEngine.rotate_wal, StorageEngine.get_timestamp]
      | some t => simp [hc, StorageEngine.rotate_wal, StorageEngine.get_timestamp]

theorem flush_memtable_active (s : StorageEngine K) :
    s.flush_memtable.active_memtable = s.active_memtable := by
  unfold StorageEngine.flush_memtable
  cases s.immutable_memtable with
  | none => rfl
  | some mem =>
    by_cases he : mem.entries.isEmpty
    · simp [he, StorageEngine.rotate_wal]
    · simp only [he]
      cases hc : create_sstable_from_memtable mem 0
          (StorageEngine.get_timestamp { s with immutable_memtable := none }).1 with
      | none => simp [hc, StorageEngine.rotate_wal, StorageEngine.get_timestamp]
      | some t => simp [hc, StorageEngine.rotate_wal, StorageEngine.get_timestamp]

theorem memtable_rollover_cache [ByteSized K] (s : StorageEngine K) :
    s.memtable_rollover.cache_list = s.cache_list := by
  unfold StorageEngine.memtable_rollover
  by_cases h : MEMTABLE_MAX_SIZE ≤ s.active_memtable.size_bytes
  · simp only [h, if_pos]
    by_cases hi : s.immutable_memtable.isSome <;>
      simp [hi, flush_memtable_cache]
  · simp [h]

/-- Shared read-your-writes core: after `set(k, v)` the cache front holds
`(k, v)`, so an immediate `get(k)` is answered from the cache with `v`. -/
theorem get_after_set [ByteSized K] (s : StorageEngine K) (k : K) (v : String) :
    ((s.set (some k) (some v)).2.get (some k)).1 = some v := by
  have hc : (s.set (some k) (some v)).2.cache_list =
      update_cache (s.log_wal_entry (WalEntry.setOp k v)).cache_list k v := by
    simp [StorageEngine.set, memtable_rollover_cache, StorageEngine.get_timestamp]
  have hf : cache_find ((s.set (some k) (some v)).2.cache_list) k = some v := by
    rw [hc]; exact cache_find_update_self _ _ _
  simp [StorageEngine.get, get_from_cache, hf]

/-! ### C3 — `set` precondition -/

/-- C3 counterexample: the claim says `set` errors on an empty key, but the
code only checks the pointers for null: `set("", "v")` on a fresh engine
returns ok. -/
theorem C3_empty_key_accepted :
    (StorageEngine.set (K := String) (StorageEngine.startup [] [])
      (some "") (some "v")).1 = true := by
  decide

/-- C3 (amended): `set(k, v)` returns an error if and only if the key
pointer or the value pointer is null; every non-null key — the empty key
included — succeeds with every non-null value. -/
theorem C3_set_error_iff_null [ByteSized K] (s : StorageEngine K)
    (key : Option K) (value : Option String) :
    (s.set key value).1 = false ↔ (key = none ∨ value = none) := by
  cases key <;> cases value <;> simp [StorageEngine.set]

/-! ### C8 — read-your-writes -/

/-- C8: for every engine state, every key `k` and value `v`, `set(k, v)`
immediately followed by `get(k)` returns `v` (the cache is refreshed by the
write and answers the read). -/
theorem C8_read_your_writes [ByteSized K] (s : StorageEngine K) (k : K) (v : String) :
    ((s.set (some k) (some v)).2.get (some k)).1 = some v :=
  get_after_set s k v

/-! ### C10 — `get` is read-only except for the cache -/

/-- C10: `get` leaves the memtables, the level lists, the sequence counter
and the WAL unchanged; only the LRU cache may be modified. -/
theorem C10_get_frame (s : StorageEngine K) (key : Option K) :
    ((s.get key).2.active_memtable = s.active_memtable) ∧
    ((s.get key).2.immutable_memtable = s.immutable_memtable) ∧
    ((s.get key).2.levels = s.levels) ∧
    ((s.get key).2.next_timestamp = s.next_timestamp) ∧
    ((s.get key).2.wal = s.wal) := by
  cases key with
  | none => simp [StorageEngine.get]
  | some k =>
    unfold StorageEngine.get StorageEngine.get_levels
    (repeat' split) <;> simp_all

/-! ### C1 — sequence-counter seeding at startup -/

/-- The on-disk layout for the C1 failing input: an empty WAL plus a single
level-1 table holding one record with sequence number 100. -/
def diskC1 : List (List (SSTable Nat)) :=
  [[], [{ level := 1, id := 0, min_key := 3, max_key := 3,
          index := [(3, ⟨3, "old", 100, false⟩)], bloom := some [3] }]]

/-- C1: the constructor does **not** seed the sequence counter above the
sequence numbers of loaded SST records.  With an empty WAL and a loaded
table holding sequence 100, startup leaves `next_timestamp` at 1, so the
next `set`/`del` is issued sequence 1 ≤ 100, contradicting the spec's
"Implementations must seed the counter above any sequence present in
loaded SSTs". -/
theorem C1_counter_not_seeded :
    (StorageEngine.startup (K := Nat) [] diskC1).next_timestamp = 1 ∧
    (∃ lvl ∈ (StorageEngine.startup (K := Nat) [] diskC1).levels,
      ∃ t ∈ lvl, ∃ p ∈ t.index, p.2.timestamp = 100) := by
  decide

/-! ### C4 — memtable hits short-circuit the read path -/

/-- The C4 failing state: the cache is empty, the active memtable holds
`(5 ↦ "old")` at sequence 1, and a level-0 table holds `(5 ↦ "new")` at
sequence 7. -/
def sC4 : StorageEngine Nat :=
  { active_memtable := ⟨[(5, ⟨5, "old", 1, false⟩)], 4⟩,
    immutable_memtable := none,
    levels := [[{ level := 0, id := 9, min_key := 5, max_key := 5,
                  index := [(5, ⟨5, "new", 7, false⟩)], bloom := some [5] }]],
    next_timestamp := 8, cache_list := [], wal := [] }

/-- C4 counterexample: with a memtable record at sequence 1 and a table
record at sequence 7 for the same key, `get` answers `"old"` from the
memtable alone — it does not return the value of the greatest-sequence
record (`"new"`), so the claim is false on the code. -/
theorem C4_memtable_shortcircuits :
    sC4.active_memtable.get 5 = some ⟨5, "old", 1, false⟩ ∧
    scan_levels sC4.levels 5 = some ⟨5, "new", 7, false⟩ ∧
    (1 : Nat) < 7 ∧
    (sC4.get (some 5)).1 = some "old" ∧
    (sC4.get (some 5)).1 ≠ some "new" := by
  decide

/-- C4 (amended): when the cache misses and the active memtable yields a
record for `k`, `get` answers from that record alone — its value, or
absent for a tombstone — without consulting the level tables; likewise for
an immutable-memtable hit after an active miss.  Only when cache and both
memtables miss does the engine scan the levels with seq-max resolution. -/
theorem C4_memtable_hit_answers_alone (s : StorageEngine K) (k : K) :
    (∀ kv, cache_find s.cache_list k = none → s.active_memtable.get k = some kv →
      (s.get (some k)).1 = (if kv.is_deleted then none else some kv.value)) ∧
    (∀ imm kv, cache_find s.cache_list k = none → s.active_memtable.get k = none →
      s.immutable_memtable = some imm → imm.get k = some kv →
      (s.get (some k)).1 = (if kv.is_deleted then none else some kv.value)) := by
  constructor
  · intro kv hc ha
    simp only [StorageEngine.get, get_from_cache, hc, ha]
    split <;> simp_all
  · intro imm kv hc ha hi hg
    simp only [StorageEngine.get, get_from_cache, hc, ha, hi, hg]
    split <;> simp_all

/-- A state exercising the amended C4: a tombstone for key 5 in the active
memtable while a level table still holds a live record at a higher
sequence. -/
def sC4w : StorageEngine Nat :=
  { active_memtable := ⟨[(5, ⟨5, "", 3, true⟩)], 1⟩,
    immutable_memtable := none,
    levels := [[{ level := 0, id := 9, min_key := 5, max_key := 5,
                  index := [(5, ⟨5, "new", 9, false⟩)], bloom := some [5] }]],
    next_timestamp := 10, cache_list := [], wal := [] }

/-- Witness for the amended C4 at a concrete state: the active-memtable
tombstone answers the read as absent even though a level table holds a
live record. -/
theorem C4_memtable_hit_witness : (sC4w.get (some 5)).1 = none := by
  have h := (C4_memtable_hit_answers_alone sC4w 5).1 ⟨5, "", 3, true⟩
    (by decide) (by decide)
  simpa using h

/-! ### C7 — WAL replay -/

/-- The record the specification says replay must leave for a key: the
last logged operation for that key determines it (a SET's value, or a
tombstone with empty value for a DEL), and its sequence number is the one
assigned in replay order, `t` being the sequence of the first listed
entry. -/
def lastLoggedRecord : List (WalEntry K) → K → Nat → Option (KeyValue K)
  | [], _, _ => none
  | e :: rest, k, t =>
    match lastLoggedRecord rest k (t + 1) with
    | some r => some r
    | none =>
      match e with
      | WalEntry.setOp k' v => if k' = k then some ⟨k', v, t, false⟩ else none
      | WalEntry.delOp k' => if k' = k then some ⟨k', "", t, true⟩ else none

theorem replay_step_next_timestamp [ByteSized K] (s : StorageEngine K) (e : WalEntry K) :
    (replay_step s e).next_timestamp = s.next_timestamp + 1 := by
  cases e <;> rfl

theorem replay_fold_get [ByteSized K] (es : List (WalEntry K)) (s : StorageEngine K)
    (k : K) :
    (es.foldl replay_step s).active_memtable.get k =
      (match lastLoggedRecord es k s.next_timestamp with
       | some r => some r
       | none => s.active_memtable.get k) := by
  induction es generalizing s with
  | nil => simp [lastLoggedRecord]
  | cons e rest ih =>
    rw [List.foldl_cons, ih, replay_step_next_timestamp]
    have hput : (replay_step s e).active_memtable.get k =
        (match e with
         | WalEntry.setOp k' v => if k' = k then some ⟨k', v, s.next_timestamp, false⟩
                                  else s.active_memtable.get k
         | WalEntry.delOp k' => if k' = k then some ⟨k', "", s.next_timestamp, true⟩
                                else s.active_memtable.get k) := by
      cases e with
      | setOp k' v =>
        simp only [replay_step, StorageEngine.get_timestamp, MemTable.get_put]
        by_cases h : k' = k
        · subst h; simp
        · simp [h, Ne.symm h]
      | delOp k' =>
        simp only [replay_step, StorageEngine.get_timestamp, MemTable.get_put]
        by_cases h : k' = k
        · subst h; simp
        · simp [h, Ne.symm h]
    cases hr : lastLoggedRecord rest k (s.next_timestamp + 1) with
    | some r => simp [lastLoggedRecord, hr]
    | none =>
      simp only [lastLoggedRecord, hr, hput]
      cases e with
      | setOp k' v => by_cases h : k' = k <;> simp [h]
      | delOp k' => by_cases h : k' = k <;> simp [h]

/-- C7: for every well-formed WAL (modelled as its parsed record list),
after the constructor's `replay_wal()` the active memtable holds, for each
key, exactly the record of the last logged SET/DEL for that key, with
sequence numbers assigned in replay order starting at 1. -/
theorem C7_replay_last_op_wins [ByteSized K] (wal : List (WalEntry K))
    (disk : List (List (SSTable K))) (k : K) :
    (StorageEngine.startup wal disk).active_memtable.get k = lastLoggedRecord wal k 1 := by
  show ((({ active_memtable := MemTable.init, immutable_memtable := none,
            levels := List.replicate 7 [], next_timestamp := 1,
            cache_list := [], wal := wal } : StorageEngine K).replay_wal)).active_memtable.get k
      = lastLoggedRecord wal k 1
  rw [StorageEngine.replay_wal, replay_fold_get]
  cases h : lastLoggedRecord wal k 1 <;> simp [MemTable.init, MemTable.get, mapFind]

/-! ### C9 — bloom filter has no false negatives -/

theorem getD_set_true_mono (bs : List Bool) (q p : Nat) (hp : bs.getD p false = true) :
    (bs.set q true).getD p false = true := by
  by_cases hqp : q = p
  · subst hqp
    by_cases hq : q < bs.length
    · simp [List.getD_eq_getElem?_getD, List.getElem?_set_eq_of_lt _ hq]
    · rw [List.set_eq_of_length_le (Nat.le_of_not_lt hq)]
      exact hp
  · simpa [List.getD_eq_getElem?_getD, List.getElem?_set_ne hqp] using hp

theorem bloom_fold_length (l : List Nat) (g : Nat → Nat) (bs : List Bool) :
    (l.foldl (fun b j => b.set (g j % b.length) true) bs).length = bs.length := by
  induction l generalizing bs with
  | nil => rfl
  | cons j tail ih => rw [List.foldl_cons, ih, List.length_set]

theorem bloom_fold_getD_mono (l : List Nat) (g : Nat → Nat) (bs : List Bool) (p : Nat)
    (hp : bs.getD p false = true) :
    (l.foldl (fun b j => b.set (g j % b.length) true) bs).getD p false = true := by
  induction l generalizing bs with
  | nil => exact hp
  | cons j tail ih =>
    rw [List.foldl_cons]
    exact ih _ (getD_set_true_mono _ _ _ hp)

theorem bloom_fold_getD_hit (l : List Nat) (g : Nat → Nat) (bs : List Bool) (i : Nat)
    (hi : i ∈ l) (hb : 0 < bs.length) :
    (l.foldl (fun b j => b.set (g j % b.length) true) bs).getD (g i % bs.length) false
      = true := by
  induction l generalizing bs with
  | nil => simp at hi
  | cons j tail ih =>
    rw [List.foldl_cons]
    rcases List.mem_cons.mp hi with hij | hit
    · subst hij
      apply bloom_fold_getD_mono
      have hlt : g i % bs.length < bs.length := Nat.mod_lt _ hb
      simp [List.getD_eq_getElem?_getD, List.getElem?_set_eq_of_lt _ hlt]
    · have := ih (bs.set (g j % bs.length) true) hit (by rwa [List.length_set])
      rwa [List.length_set] at this

theorem bloom_add_bits_length (h : String → Nat) (bf : BloomFilter) (key : String) :
    (bf.add h key).bits.length = bf.bits.length :=
  bloom_fold_length _ _ _

theorem bloom_add_self (h : String → Nat) (bf : BloomFilter) (key : String)
    (hb : 0 < bf.bits.length) :
    (bf.add h key).possibly_contains h key = true := by
  unfold BloomFilter.possibly_contains
  rw [List.all_eq_true]
  intro i hi
  rw [show (bf.add h key).bits.length = bf.bits.length from bloom_add_bits_length h bf key]
  exact bloom_fold_getD_hit _ _ _ i hi hb

theorem bloom_add_mono (h : String → Nat) (bf : BloomFilter) (key k0 : String)
    (hc : bf.possibly_contains h key = true) :
    (bf.add h k0).possibly_contains h key = true := by
  unfold BloomFilter.possibly_contains at hc ⊢
  rw [List.all_eq_true] at hc ⊢
  intro i hi
  rw [show (bf.add h k0).bits.length = bf.bits.length from bloom_add_bits_length h bf k0]
  exact bloom_fold_getD_mono _ _ _ _ (hc i hi)

theorem bloom_foldl_adds_mono (h : String → Nat) (bf : BloomFilter)
    (ks : List String) (key : String)
    (hc : bf.possibly_contains h key = true) :
    (ks.foldl (BloomFilter.add h) bf).possibly_contains h key = true := by
  induction ks generalizing bf with
  | nil => exact hc
  | cons k0 tail ih =>
    rw [List.foldl_cons]
    exact ih _ (bloom_add_mono h bf key k0 hc)

/-- C9: for every base hash function, every bloom filter with a non-empty
bit array, and every sequence of `add` calls, `possibly_contains(k)`
returns true for every key `k` that was ever added, regardless of which
other keys were added before or after. -/
theorem C9_bloom_no_false_negative (h : String → Nat) (bf : BloomFilter)
    (ks : List String) (key : String) (hk : key ∈ ks) (hb : 0 < bf.bits.length) :
    (ks.foldl (BloomFilter.add h) bf).possibly_contains h key = true := by
  induction ks generalizing bf with
  | nil => simp at hk
  | cons k0 tail ih =>
    rw [List.foldl_cons]
    by_cases ht : key ∈ tail
    · exact ih _ ht (by rwa [bloom_add_bits_length])
    · have hk0 : key = k0 := by
        rcases List.mem_cons.mp hk with h1 | h1
        · exact h1
        · exact absurd h1 ht
      subst hk0
      exact bloom_foldl_adds_mono h _ tail key (bloom_add_self h bf key hb)

/-- Witness for C9 at a concrete filter: a 20-bit filter with 7 hashes,
keys "a" and "b" added (base hash: byte length), still reports "a". -/
theorem C9_bloom_witness :
    ("a" ∈ ["a", "b"]) ∧ 0 < (BloomFilter.mk 7 (List.replicate 20 false)).bits.length ∧
    ((["a", "b"].foldl (BloomFilter.add String.length)
      (BloomFilter.mk 7 (List.replicate 20 false))).possibly_contains
        String.length "a" = true) :=
  ⟨by decide, by decide,
    C9_bloom_no_false_negative String.length _ ["a", "b"] "a" (by decide) (by decide)⟩

/-! ### C6 — compaction merge keeps the seq-max record, drops tombstones -/

/-- The merge-selection step of `merge_sstables` seen per key: keep the
stronger of the record held so far and the incoming one, "stronger" being
strictly greater sequence number. -/
def pick (acc : Option (KeyValue K)) (r : KeyValue K) : Option (KeyValue K) :=
  match acc with
  | none => some r
  | some a => if a.timestamp < r.timestamp then some r else some a

/-- The records an index pair list contributes for a key, each rebuilt
under the index key exactly as `merge_sstables` reads them. -/
def recsOfPairs (L : List (K × KeyValue K)) (k : K) : List (KeyValue K) :=
  L.filterMap
    (fun p => if p.1 = k then
        some (⟨p.1, p.2.value, p.2.timestamp, p.2.is_deleted⟩ : KeyValue K)
      else none)

/-- All records the input tables of a merge contribute for a key, in the
order `merge_sstables` visits them. -/
def recordsFor (tables : List (SSTable K)) (k : K) : List (KeyValue K) :=
  recsOfPairs ((tables.map SSTable.index).flatten) k

theorem mergeStep_find_self (m : List (K × KeyValue K)) (p : K × KeyValue K) (k : K)
    (hk : p.1 = k) :
    mapFind (mergeStep m p) k =
      pick (mapFind m k) ⟨p.1, p.2.value, p.2.timestamp, p.2.is_deleted⟩ := by
  subst hk
  unfold mergeStep pick
  cases hf : mapFind m p.1 with
  | none => simp [hf, mapFind_mapInsert_self]
  | some old =>
    simp only [hf]
    by_cases hts : old.timestamp < p.2.timestamp
    · simp [hts, mapFind_mapInsert_self]
    · simp [hts, hf]

theorem mergeStep_find_ne (m : List (K × KeyValue K)) (p : K × KeyValue K) (k : K)
    (hk : p.1 ≠ k) : mapFind (mergeStep m p) k = mapFind m k := by
  unfold mergeStep
  cases hf : mapFind m p.1 with
  | none => simp [mapFind_mapInsert_ne _ _ _ _ (Ne.symm hk)]
  | some old =>
    by_cases hts : old.timestamp < p.2.timestamp
    · simp [hts, mapFind_mapInsert_ne _ _ _ _ (Ne.symm hk)]
    · simp [hts]

theorem mergeStep_fold_find (L : List (K × KeyValue K)) (m : List (K × KeyValue K))
    (k : K) :
    mapFind (L.foldl mergeStep m) k = (recsOfPairs L k).foldl pick (mapFind m k) := by
  induction L generalizing m with
  | nil => rfl
  | cons p L' ih =>
    rw [List.foldl_cons, ih]
    by_cases hk : p.1 = k
    · rw [mergeStep_find_self m p k hk]
      simp only [recsOfPairs, List.filterMap_cons, if_pos hk, List.foldl_cons]
    · rw [mergeStep_find_ne m p k hk]
      simp only [recsOfPairs, List.filterMap_cons, if_neg hk]

theorem mergedOf_eq_flat (tables : List (SSTable K)) (m : List (K × KeyValue K)) :
    tables.foldl (fun m t => t.index.foldl mergeStep m) m =
      ((tables.map SSTable.index).flatten).foldl mergeStep m := by
  induction tables generalizing m with
  | nil => rfl
  | cons t ts ih => rw [List.foldl_cons, List.map_cons, List.flatten_cons,
      List.foldl_append, ih]

theorem mergedOf_find (tables : List (SSTable K)) (k : K) :
    mapFind (mergedOf tables) k = (recordsFor tables k).foldl pick none := by
  rw [mergedOf, mergedOf_eq_flat, recordsFor, mergeStep_fold_find]
  rfl

theorem pick_fold_sound (recs : List (KeyValue K)) (acc : Option (KeyValue K))
    (m : KeyValue K) (hm : recs.foldl pick acc = some m) :
    (m ∈ recs ∨ acc = some m) ∧ (∀ x ∈ recs, x.timestamp ≤ m.timestamp) ∧
      (∀ a, acc = some a → a.timestamp ≤ m.timestamp) := by
  induction recs generalizing acc with
  | nil =>
    refine ⟨Or.inr hm, by simp, ?_⟩
    intro a ha
    rw [List.foldl_nil] at hm
    rw [ha] at hm
    cases hm
    exact le_refl _
  | cons r recs' ih =>
    rw [List.foldl_cons] at hm
    obtain ⟨hmem, hall, hacc⟩ := ih (pick acc r) hm
    have hstep : ∀ b, pick acc r = some b →
        r.timestamp ≤ b.timestamp ∧ (b = r ∨ acc = some b) ∧
        (∀ a, acc = some a → a.timestamp ≤ b.timestamp) := by
      intro b hb
      cases acc with
      | none =>
        simp only [pick] at hb
        cases hb
        exact ⟨le_refl _, Or.inl rfl, by simp⟩
      | some a =>
        simp only [pick] at hb
        by_cases hts : a.timestamp < r.timestamp
        · rw [if_pos hts] at hb
          cases hb
          exact ⟨le_refl _, Or.inl rfl, by
            intro a' ha'; cases ha'; exact le_of_lt hts⟩
        · rw [if_neg hts] at hb
          cases hb
          exact ⟨le_of_not_lt hts, Or.inr rfl, by
            intro a' ha'; cases ha'; exact le_refl _⟩
    have hsome : ∃ b, pick acc r = some b := by
      cases acc with
      | none => exact ⟨r, rfl⟩
      | some a =>
        simp only [pick]
        by_cases hts : a.timestamp < r.timestamp
        · exact ⟨r, by rw [if_pos hts]⟩
        · exact ⟨a, by rw [if_neg hts]⟩
    obtain ⟨b, hb⟩ := hsome
    obtain ⟨hrb, hbmem, hbacc⟩ := hstep b hb
    refine ⟨?_, ?_, ?_⟩
    · rcases hmem with h1 | h1
      · exact Or.inl (List.mem_cons_of_mem _ h1)
      · rw [hb] at h1
        cases h1
        rcases hbmem with h2 | h2
        · exact Or.inl (h2 ▸ List.mem_cons_self _ _)
        · exact Or.inr h2
    · intro x hx
      rcases List.mem_cons.mp hx with h1 | h1
      · subst h1
        exact le_trans hrb (hacc b hb)
      · exact hall x h1
    · intro a ha
      exact le_trans (hbacc a ha) (hacc b hb)

theorem pick_fold_isSome (recs : List (KeyValue K)) (acc : Option (KeyValue K))
    (h : acc.isSome ∨ recs ≠ []) : (recs.foldl pick acc).isSome := by
  induction recs generalizing acc with
  | nil =>
    rcases h with h1 | h1
    · exact h1
    · exact absurd rfl h1
  | cons r recs' ih =>
    rw [List.foldl_cons]
    apply ih
    left
    cases acc with
    | none => rfl
    | some a =>
      simp only [pick]
      by_cases hts : a.timestamp < r.timestamp
      · rw [if_pos hts]; rfl
      · rw [if_neg hts]; rfl

/-- Under a strict sequence maximum hypothesis, the merge map resolves a
key to exactly the seq-max record contributed for it. -/
theorem mergedOf_find_max (tables : List (SSTable K)) (k : K) (r : KeyValue K)
    (hr : r ∈ recordsFor tables k)
    (hmax : ∀ r' ∈ recordsFor tables k, r' = r ∨ r'.timestamp < r.timestamp) :
    mapFind (mergedOf tables) k = some r := by
  rw [mergedOf_find]
  have hne : recordsFor tables k ≠ [] := by
    intro h
    rw [h] at hr
    simp at hr
  have hs := pick_fold_isSome (recordsFor tables k) none (Or.inr hne)
  obtain ⟨m, hm⟩ := Option.isSome_iff_exists.mp hs
  obtain ⟨hmem, hall, -⟩ := pick_fold_sound _ _ _ hm
  have hmrec : m ∈ recordsFor tables k := by
    rcases hmem with h1 | h1
    · exact h1
    · cases h1
  have : m = r := by
    rcases hmax m hmrec with h1 | h1
    · exact h1
    · exact absurd (lt_of_le_of_lt (hall r hr) h1) (lt_irrefl _)
  rw [hm, this]

/-! Sortedness (hence key-uniqueness) of `mergedOf`, needed to push a
lookup through the tombstone filter. -/

theorem mem_mapInsert (l : List (K × KeyValue K)) (k : K) (v : KeyValue K)
    (x : K × KeyValue K) (hx : x ∈ mapInsert l k v) : x = (k, v) ∨ x ∈ l := by
  induction l with
  | nil => simpa [mapInsert] using hx
  | cons p rest ih =>
    obtain ⟨k', v'⟩ := p
    by_cases hlt : k < k'
    · simp only [mapInsert, if_pos hlt] at hx
      rcases List.mem_cons.mp hx with h1 | h1
      · exact Or.inl h1
      · exact Or.inr h1
    · by_cases heq : k = k'
      · simp only [mapInsert, if_neg hlt, if_pos heq] at hx
        rcases List.mem_cons.mp hx with h1 | h1
        · exact Or.inl h1
        · exact Or.inr (List.mem_cons_of_mem _ h1)
      · simp only [mapInsert, if_neg hlt, if_neg heq] at hx
        rcases List.mem_cons.mp hx with h1 | h1
        · exact Or.inr (h1 ▸ List.mem_cons_self _ _)
        · rcases ih h1 with h2 | h2
          · exact Or.inl h2
          · exact Or.inr (List.mem_cons_of_mem _ h2)

theorem mapInsert_sorted (l : List (K × KeyValue K)) (k : K) (v : KeyValue K)
    (h : List.Pairwise (fun a b => a.1 < b.1) l) :
    List.Pairwise (fun a b => a.1 < b.1) (mapInsert l k v) := by
  induction l with
  | nil => simp [mapInsert]
  | cons p rest ih =>
    obtain ⟨k', v'⟩ := p
    rw [List.pairwise_cons] at h
    obtain ⟨hhead, htail⟩ := h
    by_cases hlt : k < k'
    · simp only [mapInsert, if_pos hlt]
      rw [List.pairwise_cons]
      refine ⟨?_, List.Pairwise.cons hhead htail⟩
      intro x hx
      rcases List.mem_cons.mp hx with h1 | h1
      · cases h1; exact hlt
      · exact lt_trans hlt (hhead x h1)
    · by_cases heq : k = k'
      · subst heq
        simp only [mapInsert, if_neg hlt, if_pos rfl]
        exact List.Pairwise.cons hhead htail
      · simp only [mapInsert, if_neg hlt, if_neg heq]
        rw [List.pairwise_cons]
        refine ⟨?_, ih htail⟩
        intro x hx
        rcases mem_mapInsert _ _ _ _ hx with h1 | h1
        · cases h1
          exact lt_of_le_of_ne (le_of_not_lt hlt) (Ne.symm heq)
        · exact hhead x h1

theorem mergeStep_sorted (m : List (K × KeyValue K)) (p : K × KeyValue K)
    (h : List.Pairwise (fun a b => a.1 < b.1) m) :
    List.Pairwise (fun a b => a.1 < b.1) (mergeStep m p) := by
  unfold mergeStep
  cases hf : mapFind m p.1 with
  | none => exact mapInsert_sorted _ _ _ h
  | some old =>
    by_cases hts : old.timestamp < p.2.timestamp
    · simp only [hts, if_pos]
      exact mapInsert_sorted _ _ _ h
    · simpa [hts] using h

theorem mergedOf_sorted (tables : List (SSTable K)) :
    List.Pairwise (fun a b => a.1 < b.1) (mergedOf tables) := by
  rw [mergedOf, mergedOf_eq_flat]
  generalize (tables.map SSTable.index).flatten = L
  have hstart : List.Pairwise (fun (a b : K × KeyValue K) => a.1 < b.1)
      ([] : List (K × KeyValue K)) := List.Pairwise.nil
  generalize hm : ([] : List (K × KeyValue K)) = m at hstart ⊢
  clear hm
  induction L generalizing m with
  | nil => exact hstart
  | cons p L' ih => exact ih _ (mergeStep_sorted m p hstart)

theorem mapFind_eq_none_iff (l : List (K × KeyValue K)) (k : K) :
    mapFind l k = none ↔ ∀ p ∈ l, p.1 ≠ k := by
  induction l with
  | nil => simp [mapFind]
  | cons p rest ih =>
    obtain ⟨k', v'⟩ := p
    by_cases hk : k = k'
    · subst hk
      simp [mapFind, ih]
    · simp [mapFind, hk, ih, Ne.symm hk]

theorem mapFind_filter (l : List (K × KeyValue K)) (k : K) (P : K × KeyValue K → Bool)
    (hs : List.Pairwise (fun a b => a.1 < b.1) l) :
    mapFind (l.filter P) k =
      (match mapFind l k with
       | some v => if P (k, v) then some v else none
       | none => none) := by
  induction l with
  | nil => simp [mapFind]
  | cons p rest ih =>
    obtain ⟨k', v'⟩ := p
    rw [List.pairwise_cons] at hs
    obtain ⟨hhead, htail⟩ := hs
    by_cases hk : k = k'
    · subst hk
      have hrest : mapFind rest k = none := by
        rw [mapFind_eq_none_iff]
        intro q hq
        exact ne_of_gt (hhead q hq)
      by_cases hp : P (k, v')
      · simp [List.filter_cons, hp, mapFind]
      · have : mapFind (rest.filter P) k = none := by
          rw [mapFind_eq_none_iff]
          intro q hq
          exact ne_of_gt (hhead q (List.mem_of_mem_filter hq))
        simp [List.filter_cons, hp, mapFind, this]
    · by_cases hp : P (k', v')
      · simp [List.filter_cons, hp, mapFind, hk, ih htail]
      · simp [List.filter_cons, hp, mapFind, hk, ih htail]

/-- C6: when input records share a key, the merge output of
`merge_sstables` keeps exactly the record with the (strictly) greatest
sequence number for that key, and that record is omitted from the output
table exactly when its tombstone flag is set and the target level is
greater than 0. -/
theorem C6_merge_seq_max (s : StorageEngine K) (tables : List (SSTable K))
    (lvl : Nat) (k : K) (r : KeyValue K)
    (hr : r ∈ recordsFor tables k)
    (hmax : ∀ r' ∈ recordsFor tables k, r' = r ∨ r'.timestamp < r.timestamp) :
    ∃ out s', merge_sstables s tables lvl = ([out], s') ∧
      mapFind out.index k = (if r.is_deleted ∧ 0 < lvl then none else some r) := by
  have hfind : mapFind (mergedOf tables) k = some r := mergedOf_find_max tables k r hr hmax
  have hsorted := mergedOf_sorted tables
  rcases hmerged : mergedOf tables with _ | ⟨e, rest⟩
  · rw [hmerged] at hfind
    simp [mapFind] at hfind
  · rw [hmerged] at hfind hsorted
    have hms : merge_sstables s tables lvl =
        ([{ level := lvl, id := s.next_timestamp,
            min_key := e.1,
            max_key := ((e :: rest).getLast (List.cons_ne_nil e rest)).1,
            index := (e :: rest).filter (fun q => !(q.2.is_deleted && decide (0 < lvl))),
            bloom := some (((e :: rest).filter
              (fun q => !(q.2.is_deleted && decide (0 < lvl)))).map Prod.fst) }],
         (s.get_timestamp).2) := by
      unfold merge_sstables
      rw [hmerged]
      rfl
    refine ⟨_, _, hms, ?_⟩
    show mapFind ((e :: rest).filter
        (fun q => !(q.2.is_deleted && decide (0 < lvl)))) k = _
    rw [mapFind_filter _ _ _ hsorted, hfind]
    by_cases hd : r.is_deleted ∧ 0 < lvl
    · simp [hd.1, hd.2]
    · rcases Decidable.not_and_iff_or_not.mp hd with h1 | h1
      · simp only [if_neg hd]
        simp [h1]
      · simp only [if_neg hd]
        simp [Nat.le_zero.mp (Nat.not_lt.mp h1)]

/-- The C6 witness tables: two level-0 tables both holding key 5, at
sequence numbers 3 and 9. -/
def tabsC6 : List (SSTable Nat) :=
  [{ level := 0, id := 1, min_key := 5, max_key := 5,
     index := [(5, ⟨5, "a", 3, false⟩)], bloom := some [5] },
   { level := 0, id := 2, min_key := 5, max_key := 5,
     index := [(5, ⟨5, "b", 9, false⟩)], bloom := some [5] }]

/-- Witness for C6 at concrete tables: merging two versions of key 5 keeps
the sequence-9 record. -/
theorem C6_merge_witness :
    ∃ out s', merge_sstables (StorageEngine.startup (K := Nat) [] []) tabsC6 1 =
        ([out], s') ∧ mapFind out.index 5 = some ⟨5, "b", 9, false⟩ := by
  have h := C6_merge_seq_max (StorageEngine.startup (K := Nat) [] []) tabsC6 1 5
    ⟨5, "b", 9, false⟩ (by decide) (by decide)
  simpa using h

/-! ### C5 — tombstones hide older versions -/

/-- The entries of the immutable memtable (empty when the slot is free);
a decidable rendering of the immutable-slot invariant. -/
def immEntries (s : StorageEngine K) : List (K × KeyValue K) :=
  (s.immutable_memtable.map MemTable.entries).getD []

/-- The reachable-state invariant used for the tombstone claim: seven
levels, uniquely keyed cache, a sorted and consistently keyed active
memtable, and every stored record carrying a sequence number below the
counter. -/
def StorageEngine.wf (s : StorageEngine K) : Prop :=
  s.levels.length = 7 ∧
  (s.cache_list.map Prod.fst).Nodup ∧
  List.Pairwise (fun a b => a.1 < b.1) s.active_memtable.entries ∧
  (∀ p ∈ s.active_memtable.entries, p.2.key = p.1) ∧
  (∀ p ∈ s.active_memtable.entries, p.2.timestamp < s.next_timestamp) ∧
  (∀ p ∈ immEntries s, p.2.timestamp < s.next_timestamp) ∧
  (∀ lvl ∈ s.levels, ∀ t ∈ lvl, ∀ p ∈ t.index, p.2.timestamp < s.next_timestamp)

instance (s : StorageEngine K) : Decidable s.wf := by
  unfold StorageEngine.wf
  infer_instance

theorem mapInsert_ne_nil (l : List (K × KeyValue K)) (k : K) (v : KeyValue K) :
    mapInsert l k v ≠ [] := by
  cases l with
  | nil => simp [mapInsert]
  | cons p rest =>
    obtain ⟨k', v'⟩ := p
    by_cases hlt : k < k'
    · simp [mapInsert, hlt]
    · by_cases heq : k = k'
      · simp [mapInsert, hlt, heq]
      · simp [mapInsert, hlt, heq]

theorem sorted_head_le {l : List (K × KeyValue K)}
    (hs : List.Pairwise (fun a b => a.1 < b.1) l) {k : K} {v : KeyValue K}
    (hm : (k, v) ∈ l) (hne : l ≠ []) :
    (l.head hne).1 ≤ k ∧ k ≤ (l.getLast hne).1 := by
  constructor
  · cases l with
    | nil => exact absurd rfl hne
    | cons x xs =>
      rcases List.mem_cons.mp hm with h1 | h1
      · cases h1
        simp
      · exact le_of_lt ((List.pairwise_cons.mp hs).1 _ h1)
  · have hsplit := List.dropLast_append_getLast hne
    rw [← hsplit] at hs hm
    rw [List.pairwise_append] at hs
    rcases List.mem_append.mp hm with h1 | h1
    · exact le_of_lt (hs.2.2 _ h1 _ (List.mem_singleton_self _))
    · have h2 := List.mem_singleton.mp h1
      rw [← h2]

theorem get_from_sstable_mem {t : SSTable K} {k : K} {kv : KeyValue K}
    (h : get_from_sstable t k = some kv) : (k, kv) ∈ t.index := by
  unfold get_from_sstable at h
  by_cases hp : (match t.bloom with
    | some ks => decide (k ∈ ks)
    | none => true) = true
  · rw [if_pos hp] at h
    cases hf : mapFind t.index k with
    | none => rw [hf] at h; cases h
    | some kv' =>
      rw [hf] at h
      dsimp only at h
      by_cases hk : kv'.key = k
      · rw [if_pos hk] at h
        cases h
        exact mapFind_mem hf
      · rw [if_neg hk] at h
        cases h
  · rw [if_neg hp] at h
    cases h

theorem scan_step_keep (k : K) (t : SSTable K) (b : KeyValue K)
    (hb : ∀ p ∈ t.index, ¬(b.timestamp < p.2.timestamp)) :
    scan_step k (some b) t = some b := by
  unfold scan_step
  by_cases hr : t.min_key ≤ k ∧ k ≤ t.max_key
  · rw [if_pos hr]
    cases hg : get_from_sstable t k with
    | none => rfl
    | some kv =>
      have := hb _ (get_from_sstable_mem hg)
      simp [this]
  · rw [if_neg hr]

theorem scan_tables_keep (l : List (SSTable K)) (k : K) (b : KeyValue K)
    (hb : ∀ t ∈ l, ∀ p ∈ t.index, ¬(b.timestamp < p.2.timestamp)) :
    scan_tables l k (some b) = some b := by
  induction l with
  | nil => rfl
  | cons t l' ih =>
    unfold scan_tables
    rw [List.foldl_cons, scan_step_keep k t b (hb t (List.mem_cons_self _ _))]
    exact ih (fun t' ht' => hb t' (List.mem_cons_of_mem _ ht'))

theorem scan_levels_keep (lvls : List (List (SSTable K))) (k : K) (b : KeyValue K)
    (hb : ∀ lvl ∈ lvls, ∀ t ∈ lvl, ∀ p ∈ t.index, ¬(b.timestamp < p.2.timestamp)) :
    lvls.foldl (fun latest lvl => scan_tables lvl.reverse k latest) (some b) = some b := by
  induction lvls with
  | nil => rfl
  | cons lvl tail ih =>
    rw [List.foldl_cons]
    have h1 : scan_tables lvl.reverse k (some b) = some b :=
      scan_tables_keep _ _ _
        (fun t ht => hb lvl (List.mem_cons_self _ _) t (List.mem_reverse.mp ht))
    rw [h1]
    exact ih (fun l hl => hb l (List.mem_cons_of_mem _ hl))

/-- After appending a table `T` that resolves the key to `tomb` at the end
of level 0 (as a flush does), the whole level scan answers `tomb`,
provided every stored record's sequence is no greater. -/
theorem scan_levels_set_first (lvls : List (List (SSTable K))) (T : SSTable K)
    (k : K) (tomb : KeyValue K) (hne : lvls ≠ [])
    (hT : get_from_sstable T k = some tomb)
    (hrange : T.min_key ≤ k ∧ k ≤ T.max_key)
    (hb : ∀ lvl ∈ lvls, ∀ t ∈ lvl, ∀ p ∈ t.index, ¬(tomb.timestamp < p.2.timestamp)) :
    scan_levels (lvls.set 0 (lvls.getD 0 [] ++ [T])) k = some tomb := by
  cases lvls with
  | nil => exact absurd rfl hne
  | cons L0 tail =>
    show scan_levels ((L0 ++ [T]) :: tail) k = some tomb
    unfold scan_levels
    rw [List.foldl_cons]
    have h1 : scan_tables (L0 ++ [T]).reverse k none = some tomb := by
      have hrev : (L0 ++ [T]).reverse = T :: L0.reverse := by
        rw [List.reverse_append]
        rfl
      rw [hrev]
      unfold scan_tables
      rw [List.foldl_cons]
      have hstep : scan_step k none T = some tomb := by
        unfold scan_step
        rw [if_pos hrange, hT]
      rw [hstep]
      exact scan_tables_keep L0.reverse k tomb
        (fun t ht => hb L0 (List.mem_cons_self _ _) t (List.mem_reverse.mp ht))
    rw [h1]
    exact scan_levels_keep tail k tomb (fun l hl => hb l (List.mem_cons_of_mem _ hl))

/-- What `flush_memtable` does when the immutable slot holds a non-empty
memtable: a table carrying exactly its entries (bloom fed every key, range
spanning the keys) is appended to level 0; the active memtable, the cache
and the immutable slot (now empty) are as expected. -/
theorem flush_memtable_spec (s : StorageEngine K) (mem : MemTable K)
    (him : s.immutable_memtable = some mem) (hne : mem.entries ≠ []) :
    ∃ T : SSTable K,
      T.index = mem.entries ∧
      T.bloom = some (mem.entries.map Prod.fst) ∧
      (List.Pairwise (fun a b => a.1 < b.1) mem.entries →
        (∀ p ∈ mem.entries, p.2.key = p.1) →
        ∀ (k : K) (v : KeyValue K), (k, v) ∈ mem.entries →
          T.min_key ≤ k ∧ k ≤ T.max_key) ∧
      s.flush_memtable.levels = s.levels.set 0 (s.levels.getD 0 [] ++ [T]) ∧
      s.flush_memtable.active_memtable = s.active_memtable ∧
      s.flush_memtable.immutable_memtable = none ∧
      s.flush_memtable.cache_list = s.cache_list := by
  rcases hmem : mem.entries with _ | ⟨e, rest⟩
  · exact absurd hmem hne
  · have hT : create_sstable_from_memtable mem 0
        ({ s with immutable_memtable := none } : StorageEngine K).next_timestamp =
        some { level := 0, id := s.next_timestamp,
               min_key := e.2.key,
               max_key := ((e :: rest).getLast (List.cons_ne_nil e rest)).2.key,
               index := e :: rest, bloom := some ((e :: rest).map Prod.fst) } := by
      unfold create_sstable_from_memtable
      rw [hmem]
    refine ⟨{ level := 0, id := s.next_timestamp,
              min_key := e.2.key,
              max_key := ((e :: rest).getLast (List.cons_ne_nil e rest)).2.key,
              index := e :: rest, bloom := some ((e :: rest).map Prod.fst) },
            ?_, ?_, ?_, ?_, ?_, ?_, ?_⟩
    · rfl
    · rfl
    · intro hsorted hkeyed k v hm
      have hh := sorted_head_le hsorted hm (List.cons_ne_nil e rest)
      constructor
      · show e.2.key ≤ k
        rw [hkeyed e (List.mem_cons_self _ _)]
        simpa using hh.1
      · show k ≤ ((e :: rest).getLast (List.cons_ne_nil e rest)).2.key
        rw [hkeyed _ (List.getLast_mem (List.cons_ne_nil e rest))]
        exact hh.2
    · unfold StorageEngine.flush_memtable
      rw [him]
      simp only [hmem, List.isEmpty_cons, Bool.false_eq_true, if_false,
        StorageEngine.get_timestamp, hT, StorageEngine.rotate_wal]
    · unfold StorageEngine.flush_memtable
      rw [him]
      simp only [hmem, List.isEmpty_cons, Bool.false_eq_true, if_false,
        StorageEngine.get_timestamp, hT, StorageEngine.rotate_wal]
    · unfold StorageEngine.flush_memtable
      rw [him]
      simp only [hmem, List.isEmpty_cons, Bool.false_eq_true, if_false,
        StorageEngine.get_timestamp, hT, StorageEngine.rotate_wal]
    · unfold StorageEngine.flush_memtable
      rw [him]
      simp only [hmem, List.isEmpty_cons, Bool.false_eq_true, if_false,
        StorageEngine.get_timestamp, hT, StorageEngine.rotate_wal]

theorem flush_memtable_immutable (s : StorageEngine K) :
    s.flush_memtable.immutable_memtable = none := by
  unfold StorageEngine.flush_memtable
  cases hi : s.immutable_memtable with
  | none => exact hi
  | some mem =>
    by_cases he : mem.entries.isEmpty
    · simp [he, StorageEngine.rotate_wal]
    · simp only [he]
      cases hc : create_sstable_from_memtable mem 0
          (StorageEngine.get_timestamp { s with immutable_memtable := none }).1 with
      | none => simp [hc, StorageEngine.rotate_wal, StorageEngine.get_timestamp]
      | some t => simp [hc, StorageEngine.rotate_wal, StorageEngine.get_timestamp]

theorem flush_memtable_levels_length (s : StorageEngine K) :
    s.flush_memtable.levels.length = s.levels.length := by
  unfold StorageEngine.flush_memtable
  cases s.immutable_memtable with
  | none => rfl
  | some mem =>
    by_cases he : mem.entries.isEmpty
    · simp [he, StorageEngine.rotate_wal]
    · simp only [he]
      cases hc : create_sstable_from_memtable mem 0
          (StorageEngine.get_timestamp { s with immutable_memtable := none }).1 with
      | none => simp [hc, StorageEngine.rotate_wal, StorageEngine.get_timestamp]
      | some t =>
        simp [hc, StorageEngine.rotate_wal, StorageEngine.get_timestamp,
          List.length_set]

theorem flush_memtable_levels_bound (s : StorageEngine K) (B : Nat)
    (hs : ∀ lvl ∈ s.levels, ∀ t ∈ lvl, ∀ p ∈ t.index, p.2.timestamp < B)
    (him : ∀ p ∈ immEntries s, p.2.timestamp < B) :
    ∀ lvl ∈ s.flush_memtable.levels, ∀ t ∈ lvl, ∀ p ∈ t.index,
      p.2.timestamp < B := by
  cases hi : s.immutable_memtable with
  | none =>
    have : s.flush_memtable = s := by
      unfold StorageEngine.flush_memtable
      rw [hi]
    rw [this]
    exact hs
  | some mem =>
    rcases hmem : mem.entries with _ | ⟨e, rest⟩
    · have : s.flush_memtable.levels = s.levels := by
        unfold StorageEngine.flush_memtable
        rw [hi]
        simp [hmem, StorageEngine.rotate_wal]
      rw [this]
      exact hs
    · obtain ⟨T, hTindex, -, -, hlev, -, -, -⟩ :=
        flush_memtable_spec s mem hi (by rw [hmem]; exact List.cons_ne_nil e rest)
      rw [hlev]
      intro lvl hlvl t ht p hp
      rcases List.mem_or_eq_of_mem_set hlvl with h1 | h1
      · exact hs lvl h1 t ht p hp
      · subst h1
        rcases List.mem_append.mp ht with h2 | h2
        · cases hlv : s.levels with
          | nil => simp [hlv] at h2
          | cons L0 tl =>
            have : t ∈ L0 := by
              rw [hlv] at h2
              simpa using h2
            exact hs L0 (by rw [hlv]; exact List.mem_cons_self _ _) t this p hp
        · rw [List.mem_singleton.mp h2] at hp
          rw [hTindex] at hp
          have : p ∈ immEntries s := by
            unfold immEntries
            rw [hi]
            exact hp
          exact him p this

theorem get_none_of_active_tombstone (s' : StorageEngine K) (k : K) (kv : KeyValue K)
    (hc : cache_find s'.cache_list k = none)
    (ha : s'.active_memtable.get k = some kv) (hd : kv.is_deleted = true) :
    (s'.get (some k)).1 = none := by
  simp [StorageEngine.get, get_from_cache, hc, ha, hd]

theorem get_none_of_levels_tombstone (s' : StorageEngine K) (k : K) (kv : KeyValue K)
    (hc : cache_find s'.cache_list k = none)
    (ha : s'.active_memtable.get k = none)
    (hi : s'.immutable_memtable = none)
    (hs : scan_levels s'.levels k = some kv) (hd : kv.is_deleted = true) :
    (s'.get (some k)).1 = none := by
  simp [StorageEngine.get, get_from_cache, hc, ha, hi,
    StorageEngine.get_levels, hs, hd]

theorem get_from_sstable_of_bloom_mem (t : SSTable K) (k : K) (kv : KeyValue K)
    (bs : List K) (hb : t.bloom = some bs) (hk : k ∈ bs)
    (hf : mapFind t.index k = some kv) (hkey : kv.key = k) :
    get_from_sstable t k = some kv := by
  unfold get_from_sstable
  rw [hb]
  simp [hk, hf, hkey]

/-- C5: under the reachable-state invariant, `del(k)` succeeds regardless
of prior presence; an immediate `get(k)` then answers absent even when
older values for `k` remain in the memtables or any level (the tombstone
carries the greatest sequence number, whether it stays in the active
memtable or is flushed into level 0 on rollover); and a subsequent
`set(k, v)` makes `get(k)` answer `v` again. -/
theorem C5_del_hides_set_restores [ByteSized K] (s : StorageEngine K) (k : K)
    (hwf : s.wf) :
    (s.del (some k)).1 = true ∧
    ((s.del (some k)).2.get (some k)).1 = none ∧
    (∀ v, (((s.del (some k)).2.set (some k) (some v)).2.get (some k)).1 = some v) := by
  obtain ⟨hlen, hnodup, hsorted, hkeyed, hactbound, himmbound, hlvlbound⟩ := hwf
  refine ⟨rfl, ?_, fun v => get_after_set _ k v⟩
  set tomb : KeyValue K := ⟨k, "", s.next_timestamp, true⟩ with htomb
  set s4 : StorageEngine K :=
    { s with wal := s.wal ++ [WalEntry.delOp k],
             cache_list := cache_erase s.cache_list k,
             next_timestamp := s.next_timestamp + 1,
             active_memtable := s.active_memtable.put tomb } with hs4
  have hdel : (s.del (some k)).2 = s4.memtable_rollover := rfl
  rw [hdel]
  have hcacheerase : cache_find (cache_erase s.cache_list k) k = none :=
    cache_find_erase_self _ _ hnodup
  have hactget : s4.active_memtable.get k = some tomb := by
    show (s.active_memtable.put tomb).get k = some tomb
    rw [MemTable.get_put]
    simp [htomb]
  by_cases hroll : MEMTABLE_MAX_SIZE ≤ s4.active_memtable.size_bytes
  · -- rollover triggered: the tombstone moves through the immutable slot
    -- into a fresh level-0 table, where the scan finds it first
    set s1 : StorageEngine K :=
      (if s4.immutable_memtable.isSome then s4.flush_memtable else s4) with hs1
    set s2 : StorageEngine K :=
      { s1 with immutable_memtable := some s1.active_memtable,
                active_memtable := MemTable.init } with hs2
    have hsd : s4.memtable_rollover = s2.flush_memtable := by
      unfold StorageEngine.memtable_rollover
      rw [if_pos hroll]
    rw [hsd]
    have h1active : s1.active_memtable = s4.active_memtable := by
      rw [hs1]
      by_cases h : s4.immutable_memtable.isSome
      · rw [if_pos h]; exact flush_memtable_active s4
      · rw [if_neg h]
    have h1cache : s1.cache_list = s4.cache_list := by
      rw [hs1]
      by_cases h : s4.immutable_memtable.isSome
      · rw [if_pos h]; exact flush_memtable_cache s4
      · rw [if_neg h]
    have h1len : s1.levels.length = s.levels.length := by
      rw [hs1]
      by_cases h : s4.immutable_memtable.isSome
      · rw [if_pos h]
        rw [flush_memtable_levels_length]
      · rw [if_neg h]
    have h1bound : ∀ lvl ∈ s1.levels, ∀ t ∈ lvl, ∀ p ∈ t.index,
        p.2.timestamp < s.next_timestamp := by
      rw [hs1]
      by_cases h : s4.immutable_memtable.isSome
      · rw [if_pos h]
        refine flush_memtable_levels_bound s4 s.next_timestamp ?_ ?_
        · exact hlvlbound
        · exact himmbound
      · rw [if_neg h]
        exact hlvlbound
    have hne' : s1.active_memtable.entries ≠ [] := by
      rw [h1active]
      exact mapInsert_ne_nil _ _ _
    obtain ⟨T, hTindex, hTbloom, hTrange, hlev, hact, himm2, hcache2⟩ :=
      flush_memtable_spec s2 s1.active_memtable rfl hne'
    have hcfinal : cache_find s2.flush_memtable.cache_list k = none := by
      rw [hcache2]
      show cache_find s1.cache_list k = none
      rw [h1cache]
      exact hcacheerase
    have hafinal : s2.flush_memtable.active_memtable.get k = none := by
      rw [hact]
      rfl
    have hsorted' : List.Pairwise (fun a b => a.1 < b.1)
        s1.active_memtable.entries := by
      rw [h1active]
      exact mapInsert_sorted _ _ _ hsorted
    have hkeyed' : ∀ p ∈ s1.active_memtable.entries, p.2.key = p.1 := by
      rw [h1active]
      intro p hp
      rcases mem_mapInsert _ _ _ _ hp with h1 | h1
      · rw [h1]
      · exact hkeyed p h1
    have hmemtomb : ((k : K), tomb) ∈ s1.active_memtable.entries := by
      rw [h1active]
      exact mapFind_mem (mapFind_mapInsert_self _ _ _)
    have hTfind : mapFind T.index k = some tomb := by
      rw [hTindex, h1active]
      exact mapFind_mapInsert_self _ _ _
    have hTget : get_from_sstable T k = some tomb := by
      refine get_from_sstable_of_bloom_mem T k tomb
        (s1.active_memtable.entries.map Prod.fst) ?_ ?_ hTfind rfl
      · exact hTbloom
      · exact List.mem_map_of_mem Prod.fst hmemtomb
    have hTrange' : T.min_key ≤ k ∧ k ≤ T.max_key :=
      hTrange hsorted' hkeyed' k tomb hmemtomb
    have hlevne : s1.levels ≠ [] := by
      intro hemp
      rw [hemp, hlen] at h1len
      simp at h1len
    have hscan : scan_levels s2.flush_memtable.levels k = some tomb := by
      rw [hlev]
      show scan_levels (s1.levels.set 0 (s1.levels.getD 0 [] ++ [T])) k = some tomb
      refine scan_levels_set_first s1.levels T k tomb hlevne hTget hTrange' ?_
      intro lvl hl t ht p hp
      exact lt_asymm (h1bound lvl hl t ht p hp)
    exact get_none_of_levels_tombstone _ k tomb hcfinal hafinal himm2 hscan rfl
  · have hnr : s4.memtable_rollover = s4 := by
      unfold StorageEngine.memtable_rollover
      rw [if_neg hroll]
    rw [hnr]
    exact get_none_of_active_tombstone s4 k tomb hcacheerase hactget rfl

/-- A concrete well-formed state for the C5 witness: older live values for
key 7 sit in the active memtable, the immutable memtable and a level-0
table. -/
def sC5 : StorageEngine Nat :=
  { active_memtable := ⟨[(7, ⟨7, "mem", 3, false⟩)], 4⟩,
    immutable_memtable := some ⟨[(7, ⟨7, "imm", 2, false⟩)], 4⟩,
    levels := [[{ level := 0, id := 1, min_key := 7, max_key := 7,
                  index := [(7, ⟨7, "lvl", 1, false⟩)], bloom := some [7] }],
               [], [], [], [], [], []],
    next_timestamp := 5, cache_list := [(7, "mem")], wal := [] }

/-- Witness for C5 at a concrete well-formed state with older versions of
the key everywhere. -/
theorem C5_del_witness :
    sC5.wf ∧ ((sC5.del (some 7)).2.get (some 7)).1 = none ∧
      (((sC5.del (some 7)).2.set (some 7) (some "w")).2.get (some 7)).1 = some "w" :=
  ⟨by decide, (C5_del_hides_set_restores sC5 7 (by decide)).2.1,
    (C5_del_hides_set_restores sC5 7 (by decide)).2.2 "w"⟩

/-! ### C2 — level invariants after compaction -/

/-- The C2 failing state: level 0 holds two tables out of `min_key` order
(ranges `[30,50]` then `[10,12]`), level 1 holds one table `[10,11]`.
`compact_level(0)` spans `[front->min_key, back->max_key] = [30,12]`, an
empty span that misses the level-1 table, yet the merged output covers
`[10,50]`. -/
def sC2 : StorageEngine Nat :=
  { active_memtable := MemTable.init, immutable_memtable := none,
    levels :=
      [[{ level := 0, id := 1, min_key := 30, max_key := 50,
          index := [(30, ⟨30, "a", 3, false⟩), (50, ⟨50, "b", 4, false⟩)],
          bloom := some [30, 50] },
        { level := 0, id := 2, min_key := 10, max_key := 12,
          index := [(10, ⟨10, "c", 5, false⟩), (12, ⟨12, "d", 6, false⟩)],
          bloom := some [10, 12] }],
       [{ level := 1, id := 3, min_key := 10, max_key := 11,
          index := [(10, ⟨10, "e", 1, false⟩), (11, ⟨11, "f", 2, false⟩)],
          bloom := some [10, 11] }], [], [], [], [], []],
    next_timestamp := 20, cache_list := [], wal := [] }

/-- C2 counterexample: after compacting level 0 of `sC2`, level 1 holds
two distinct tables whose `[min_key, max_key]` ranges overlap, so the
claimed pairwise disjointness (and with it the claimed union-span pull-in)
fails on the code. -/
theorem C2_disjointness_broken :
    ∃ a ∈ (sC2.compact_level 0).levels.getD 1 [],
      ∃ b ∈ (sC2.compact_level 0).levels.getD 1 [],
        a ≠ b ∧ max a.min_key b.min_key ≤ min a.max_key b.max_key := by
  decide

/-- Interval intersection: `[lo1, hi1]` and `[lo2, hi2]` share a point. -/
def ovl (lo1 hi1 lo2 hi2 : K) : Prop := max lo1 lo2 ≤ min hi1 hi2

/-- The compactor's overlap test `spanOverlap` is exactly `ovl` of the
span with the table's range. -/
theorem spanOverlap_iff_ovl (lo hi : K) (t : SSTable K) :
    spanOverlap lo hi t = true ↔ ovl lo hi t.min_key t.max_key := by
  simp [spanOverlap, ovl]

theorem ovl_iff_common (lo1 hi1 lo2 hi2 : K) :
    ovl lo1 hi1 lo2 hi2 ↔ ∃ p, lo1 ≤ p ∧ p ≤ hi1 ∧ lo2 ≤ p ∧ p ≤ hi2 := by
  constructor
  · intro h
    refine ⟨max lo1 lo2, le_max_left _ _, ?_, le_max_right _ _, ?_⟩
    · exact le_trans h (min_le_left _ _)
    · exact le_trans h (min_le_right _ _)
  · rintro ⟨p, h1, h2, h3, h4⟩
    exact le_trans (max_le h1 h3) (le_min h2 h4)

theorem ovl_comm (a b c d : K) : ovl a b c d ↔ ovl c d a b := by
  unfold ovl
  rw [max_comm, min_comm]

/-- Widening the second interval preserves intersection. -/
theorem ovl_widen (a b c d c' d' : K) (h : ovl a b c d) (hc : c' ≤ c) (hd : d ≤ d') :
    ovl a b c' d' := by
  rw [ovl_iff_common] at h ⊢
  obtain ⟨p, h1, h2, h3, h4⟩ := h
  exact ⟨p, h1, h2, le_trans hc h3, le_trans h4 hd⟩

/-- Two tables' key ranges are disjoint (the negation of the overlap test
used by the compactor). -/
def tableDisj (a b : SSTable K) : Prop :=
  ¬ ovl a.min_key a.max_key b.min_key b.max_key

theorem tableDisj_symm {a b : SSTable K} (h : tableDisj a b) : tableDisj b a := by
  unfold tableDisj at h ⊢
  rw [ovl_comm]
  exact h

/-- The well-formedness of one level's table list used by the amended C2:
sorted by `min_key`, pairwise disjoint ranges, and each table's range is a
non-empty interval containing all its index keys. -/
def levelWF (l : List (SSTable K)) : Prop :=
  List.Pairwise (fun a b => a.min_key ≤ b.min_key) l ∧
  List.Pairwise tableDisj l ∧
  ∀ t ∈ l, t.min_key ≤ t.max_key ∧ ∀ p ∈ t.index, t.min_key ≤ p.1 ∧ p.1 ≤ t.max_key

theorem sortByMinKey_sorted (l : List (SSTable K)) :
    List.Pairwise (fun a b => a.min_key ≤ b.min_key) (sortByMinKey l) := by
  haveI : IsTotal (SSTable K) (fun a b => a.min_key ≤ b.min_key) :=
    ⟨fun a b => le_total _ _⟩
  haveI : IsTrans (SSTable K) (fun a b => a.min_key ≤ b.min_key) :=
    ⟨fun a b c => le_trans⟩
  exact List.sorted_insertionSort _ l

theorem sortByMinKey_pairwise_disj (l : List (SSTable K))
    (h : List.Pairwise tableDisj l) :
    List.Pairwise tableDisj (sortByMinKey l) := by
  have hperm := List.perm_insertionSort
    (fun a b : SSTable K => a.min_key ≤ b.min_key) l
  exact ((hperm.pairwise_iff (fun ha => tableDisj_symm ha)).mpr h)

/-- Elements picked by a filter and by its negation are distinct positions
of a pairwise list, so the pairwise relation holds between them. -/
theorem pairwise_filter_split {R : SSTable K → SSTable K → Prop}
    (hsymm : ∀ {x y : SSTable K}, R x y → R y x)
    (l : List (SSTable K)) (P : SSTable K → Bool)
    (h : List.Pairwise R l) {a b : SSTable K}
    (ha : a ∈ l.filter P) (hb : b ∈ l.filter (fun x => !(P x))) : R a b := by
  induction l with
  | nil => simp at ha
  | cons x t ih =>
    rw [List.pairwise_cons] at h
    by_cases hx : P x
    · rw [List.filter_cons_of_pos hx] at ha
      rw [List.filter_cons_of_neg (by simp [hx])] at hb
      rcases List.mem_cons.mp ha with h1 | h1
      · subst h1
        exact h.1 b (List.mem_of_mem_filter hb)
      · exact ih h.2 h1 hb
    · rw [List.filter_cons_of_neg (by simpa using hx)] at ha
      rw [List.filter_cons_of_pos (by simp [hx])] at hb
      rcases List.mem_cons.mp hb with h1 | h1
      · subst h1
        exact hsymm (h.1 a (List.mem_of_mem_filter ha))
      · exact ih h.2 ha h1

/-- In a sorted, pairwise-disjoint, well-formed level, every table's range
lies inside `[front->min_key, back->max_key]` — the span the compactor
computes is the union span. -/
theorem span_bound (l : List (SSTable K)) (hwf : levelWF l) (hne : l ≠ []) :
    ∀ t ∈ l, (l.head hne).min_key ≤ t.min_key ∧
      t.max_key ≤ (l.getLast hne).max_key := by
  obtain ⟨hsorted, hdisj, hranges⟩ := hwf
  intro t ht
  constructor
  · cases l with
    | nil => exact absurd rfl hne
    | cons x xs =>
      rcases List.mem_cons.mp ht with h1 | h1
      · rw [h1]
        simp
      · exact (List.pairwise_cons.mp hsorted).1 _ h1
  · have hcomb := hsorted.and hdisj
    have hsplit := List.dropLast_append_getLast hne
    have hlastwf := hranges _ (List.getLast_mem hne)
    rw [← hsplit] at hcomb ht
    rw [List.pairwise_append] at hcomb
    rcases List.mem_append.mp ht with h1 | h1
    · have hrel := hcomb.2.2 _ h1 _ (List.mem_singleton_self _)
      have hlt : t.max_key < (l.getLast hne).min_key := by
        by_contra hge
        push_neg at hge
        exact hrel.2 (le_trans (max_le hrel.1 (le_refl _))
          (le_min hge hlastwf.1))
      exact le_of_lt (lt_of_lt_of_le hlt hlastwf.1)
    · rw [List.mem_singleton.mp h1]

theorem ovl_widen_left (a b c d a' b' : K) (h : ovl a b c d) (ha : a' ≤ a)
    (hb : b ≤ b') : ovl a' b' c d := by
  rw [ovl_comm] at h ⊢
  exact ovl_widen _ _ _ _ _ _ h ha hb

/-- Growing a hull interval by an interval that meets it cannot make it
meet a range disjoint from both pieces. -/
theorem hull_step (rlo rhi x y a b : K)
    (hr : ¬ ovl rlo rhi x y) (ht : ¬ ovl rlo rhi a b) (hov : ovl x y a b) :
    ¬ ovl rlo rhi (min x a) (max y b) := by
  intro hcon
  rw [ovl_iff_common] at hcon hov
  obtain ⟨p, hp1, hp2, hp3, hp4⟩ := hcon
  obtain ⟨q, hq1, hq2, hq3, hq4⟩ := hov
  rcases le_total p q with hpq | hpq
  · rcases le_total x a with hxa | hxa
    · refine hr ((ovl_iff_common _ _ _ _).mpr ⟨p, hp1, hp2, ?_, ?_⟩)
      · calc x = min x a := (min_eq_left hxa).symm
          _ ≤ p := hp3
      · exact le_trans hpq hq2
    · refine ht ((ovl_iff_common _ _ _ _).mpr ⟨p, hp1, hp2, ?_, ?_⟩)
      · calc a = min x a := (min_eq_right hxa).symm
          _ ≤ p := hp3
      · exact le_trans hpq hq4
  · rcases le_total y b with hyb | hyb
    · refine ht ((ovl_iff_common _ _ _ _).mpr ⟨p, hp1, hp2, ?_, ?_⟩)
      · exact le_trans hq3 hpq
      · calc p ≤ max y b := hp4
          _ = b := max_eq_right hyb
    · refine hr ((ovl_iff_common _ _ _ _).mpr ⟨p, hp1, hp2, ?_, ?_⟩)
      · exact le_trans hq1 hpq
      · calc p ≤ max y b := hp4
          _ = y := max_eq_left hyb

/-- Folding the hull of the merge inputs over a span keeps it disjoint
from a range that is disjoint from the span and from every input. -/
theorem hull_fold (ts : List (SSTable K)) (rlo rhi lo hi : K)
    (hr : ¬ ovl rlo rhi lo hi)
    (hts : ∀ t ∈ ts, ¬ ovl rlo rhi t.min_key t.max_key ∧
      ovl lo hi t.min_key t.max_key) :
    ¬ ovl rlo rhi (ts.foldl (fun a t => min a t.min_key) lo)
        (ts.foldl (fun a t => max a t.max_key) hi) := by
  induction ts generalizing lo hi with
  | nil => exact hr
  | cons t ts' ih =>
    rw [List.foldl_cons, List.foldl_cons]
    apply ih
    · exact hull_step rlo rhi lo hi _ _ hr (hts t (List.mem_cons_self _ _)).1
        (hts t (List.mem_cons_self _ _)).2
    · intro u hu
      refine ⟨(hts u (List.mem_cons_of_mem _ hu)).1, ?_⟩
      exact ovl_widen_left _ _ _ _ _ _ (hts u (List.mem_cons_of_mem _ hu)).2
        (min_le_left _ _) (le_max_left _ _)

theorem foldl_min_le (ts : List (SSTable K)) (lo : K) :
    ts.foldl (fun a t => min a t.min_key) lo ≤ lo ∧
    ∀ t ∈ ts, ts.foldl (fun a t => min a t.min_key) lo ≤ t.min_key := by
  induction ts generalizing lo with
  | nil => exact ⟨le_refl _, by simp⟩
  | cons t ts' ih =>
    rw [List.foldl_cons]
    obtain ⟨h1, h2⟩ := ih (min lo t.min_key)
    refine ⟨le_trans h1 (min_le_left _ _), ?_⟩
    intro u hu
    rcases List.mem_cons.mp hu with h3 | h3
    · subst h3
      exact le_trans h1 (min_le_right _ _)
    · exact h2 u h3

theorem le_foldl_max (ts : List (SSTable K)) (hi : K) :
    hi ≤ ts.foldl (fun a t => max a t.max_key) hi ∧
    ∀ t ∈ ts, t.max_key ≤ ts.foldl (fun a t => max a t.max_key) hi := by
  induction ts generalizing hi with
  | nil => exact ⟨le_refl _, by simp⟩
  | cons t ts' ih =>
    rw [List.foldl_cons]
    obtain ⟨h1, h2⟩ := ih (max hi t.max_key)
    refine ⟨le_trans (le_max_left _ _) h1, ?_⟩
    intro u hu
    rcases List.mem_cons.mp hu with h3 | h3
    · subst h3
      exact le_trans (le_max_right _ _) h1
    · exact h2 u h3

theorem mem_mergeStep (m : List (K × KeyValue K)) (p x : K × KeyValue K)
    (hx : x ∈ mergeStep m p) : x.1 = p.1 ∨ x ∈ m := by
  unfold mergeStep at hx
  cases hf : mapFind m p.1 with
  | none =>
    rw [hf] at hx
    rcases mem_mapInsert _ _ _ _ hx with h1 | h1
    · left; rw [h1]
    · right; exact h1
  | some old =>
    rw [hf] at hx
    dsimp only at hx
    by_cases hts : old.timestamp < p.2.timestamp
    · rw [if_pos hts] at hx
      rcases mem_mapInsert _ _ _ _ hx with h1 | h1
      · left; rw [h1]
      · right; exact h1
    · rw [if_neg hts] at hx
      right; exact hx

theorem foldl_mergeStep_mem (L : List (K × KeyValue K)) (m : List (K × KeyValue K))
    (x : K × KeyValue K) (hx : x ∈ L.foldl mergeStep m) :
    (∃ p ∈ L, p.1 = x.1) ∨ x ∈ m := by
  induction L generalizing m with
  | nil => exact Or.inr hx
  | cons p L' ih =>
    rw [List.foldl_cons] at hx
    rcases ih (mergeStep m p) hx with h1 | h1
    · obtain ⟨q, hq1, hq2⟩ := h1
      exact Or.inl ⟨q, List.mem_cons_of_mem _ hq1, hq2⟩
    · rcases mem_mergeStep m p x h1 with h2 | h2
      · exact Or.inl ⟨p, List.mem_cons_self _ _, h2.symm⟩
      · exact Or.inr h2

/-- Every key of the merged map originates from some input table's index. -/
theorem mergedOf_mem_src (tables : List (SSTable K)) (x : K × KeyValue K)
    (hx : x ∈ mergedOf tables) :
    ∃ t ∈ tables, ∃ p ∈ t.index, p.1 = x.1 := by
  rw [mergedOf, mergedOf_eq_flat] at hx
  rcases foldl_mergeStep_mem _ _ _ hx with h1 | h1
  · obtain ⟨p, hp1, hp2⟩ := h1
    rw [List.mem_flatten] at hp1
    obtain ⟨l, hl1, hl2⟩ := hp1
    rw [List.mem_map] at hl1
    obtain ⟨t, ht1, ht2⟩ := hl1
    exact ⟨t, ht1, p, ht2 ▸ hl2, hp2⟩
  · simp at h1

theorem getD_set_self (l : List α) (n : Nat) (x d : α) (h : n < l.length) :
    (l.set n x).getD n d = x := by
  rw [List.getD_eq_getElem?_getD, List.getElem?_set_eq h]
  rfl

theorem getD_set_same_ne (l : List α) (n m : Nat) (x d : α) (h : n ≠ m) :
    (l.set n x).getD m d = l.getD m d := by
  rw [List.getD_eq_getElem?_getD, List.getElem?_set_ne h,
    ← List.getD_eq_getElem?_getD]

theorem merge_sstables_levels (s : StorageEngine K) (ts : List (SSTable K))
    (lvl : Nat) : (merge_sstables s ts lvl).2.levels = s.levels := by
  unfold merge_sstables
  split <;> rfl

theorem merge_sstables_levels_length (s : StorageEngine K) (ts : List (SSTable K))
    (lvl : Nat) : (merge_sstables s ts lvl).2.levels.length = s.levels.length := by
  rw [merge_sstables_levels]

theorem merge_sstables_out_nil (s : StorageEngine K) (ts : List (SSTable K))
    (lvl : Nat) (hm : mergedOf ts = []) : (merge_sstables s ts lvl).1 = [] := by
  unfold merge_sstables
  rw [hm]

theorem merge_sstables_out_cons (s : StorageEngine K) (ts : List (SSTable K))
    (lvl : Nat) (e : K × KeyValue K) (rest : List (K × KeyValue K))
    (hm : mergedOf ts = e :: rest) :
    (merge_sstables s ts lvl).1 =
      [{ level := lvl, id := s.next_timestamp,
         min_key := e.1,
         max_key := ((e :: rest).getLast (List.cons_ne_nil e rest)).1,
         index := (e :: rest).filter (fun q => !(q.2.is_deleted && decide (0 < lvl))),
         bloom := some (((e :: rest).filter
           (fun q => !(q.2.is_deleted && decide (0 < lvl)))).map Prod.fst) }] := by
  unfold merge_sstables
  rw [hm]
  rfl

theorem compact_level_guard (s : StorageEngine K) (i : Nat)
    (h : s.levels.length - 1 ≤ i) : s.compact_level i = s := by
  unfold StorageEngine.compact_level
  rw [if_pos h]

theorem compact_level_empty (s : StorageEngine K) (i : Nat)
    (hguard : ¬(s.levels.length - 1 ≤ i)) (hlv : s.levels.getD i [] = []) :
    s.compact_level i = s := by
  unfold StorageEngine.compact_level
  rw [if_neg hguard, hlv]

def compactSpanHi (t0 : SSTable K) (rest : List (SSTable K)) : K :=
  ((t0 :: rest).getLast (List.cons_ne_nil t0 rest)).max_key

/-- The level-(i+1) tables the compactor leaves in place. -/
def compactRemaining (s : StorageEngine K) (i : Nat) (t0 : SSTable K)
    (rest : List (SSTable K)) : List (SSTable K) :=
  (s.levels.getD (i + 1) []).filter
    (fun t => !(spanOverlap t0.min_key (compactSpanHi t0 rest) t))

/-- The merge inputs: all level-i tables plus the overlapping level-(i+1)
tables. -/
def compactInputs (s : StorageEngine K) (i : Nat) (t0 : SSTable K)
    (rest : List (SSTable K)) : List (SSTable K) :=
  (t0 :: rest) ++ (s.levels.getD (i + 1) []).filter
    (fun t => spanOverlap t0.min_key (compactSpanHi t0 rest) t)

/-- The engine state after the compactor's in-memory bookkeeping, before
the merge output is published. -/
def compactMid (s : StorageEngine K) (i : Nat) (t0 : SSTable K)
    (rest : List (SSTable K)) : StorageEngine K :=
  { s with
    levels := (s.levels.set i []).set (i + 1) (compactRemaining s i t0 rest) }

theorem compact_level_levels (s : StorageEngine K) (i : Nat)
    (hguard : ¬(s.levels.length - 1 ≤ i))
    (t0 : SSTable K) (rest : List (SSTable K))
    (hlv : s.levels.getD i [] = t0 :: rest) :
    (s.compact_level i).levels =
      (merge_sstables (compactMid s i t0 rest)
          (compactInputs s i t0 rest) (i + 1)).2.levels.set (i + 1)
        (sortByMinKey
          ((merge_sstables (compactMid s i t0 rest)
              (compactInputs s i t0 rest) (i + 1)).2.levels.getD (i + 1) [] ++
           (merge_sstables (compactMid s i t0 rest)
              (compactInputs s i t0 rest) (i + 1)).1)) := by
  unfold StorageEngine.compact_level
  rw [if_neg hguard, hlv]
  rfl

/-- C2 (amended): the compactor spans
`[front->min_key, back->max_key]` over the level-i list, which equals the
union span exactly when that list is sorted by `min_key` and pairwise
disjoint (levels ≥ 1; level 0 may violate it, see the counterexample).
Under that hypothesis on both levels — with each table's keys inside its
range — after `compact_level(i)` the level-(i+1) list is again sorted by
`min_key` and pairwise disjoint, exactly the overlapping level-(i+1)
tables were merged, and every other level is untouched. -/
theorem C2_compaction_level_invariant (s : StorageEngine K) (i : Nat)
    (hlen : i + 1 < s.levels.length)
    (hA : levelWF (s.levels.getD i []))
    (hB : levelWF (s.levels.getD (i + 1) [])) :
    (List.Pairwise (fun a b => a.min_key ≤ b.min_key)
        ((s.compact_level i).levels.getD (i + 1) []) ∧
      List.Pairwise tableDisj ((s.compact_level i).levels.getD (i + 1) [])) ∧
    (∀ hne : s.levels.getD i [] ≠ [], ∀ t ∈ s.levels.getD i [],
      ((s.levels.getD i []).head hne).min_key ≤ t.min_key ∧
      t.max_key ≤ ((s.levels.getD i []).getLast hne).max_key) ∧
    (∀ j, j ≠ i → j ≠ i + 1 →
      (s.compact_level i).levels.getD j [] = s.levels.getD j []) := by
  have hguard : ¬(s.levels.length - 1 ≤ i) := by omega
  rcases hlv : s.levels.getD i [] with _ | ⟨t0, rest⟩
  · rw [compact_level_empty s i hguard hlv]
    exact ⟨⟨hB.1, hB.2.1⟩, fun hne => absurd rfl hne, fun j _ _ => rfl⟩
  · rw [hlv] at hA
    have hLev := compact_level_levels s i hguard t0 rest hlv
    have hqlevels :
        (merge_sstables (compactMid s i t0 rest)
          (compactInputs s i t0 rest) (i + 1)).2.levels =
        (s.levels.set i []).set (i + 1) (compactRemaining s i t0 rest) := by
      rw [merge_sstables_levels]
      rfl
    have hqlen :
        (merge_sstables (compactMid s i t0 rest)
          (compactInputs s i t0 rest) (i + 1)).2.levels.length =
        s.levels.length := by
      rw [hqlevels, List.length_set, List.length_set]
    have hmidget :
        (merge_sstables (compactMid s i t0 rest)
          (compactInputs s i t0 rest) (i + 1)).2.levels.getD (i + 1) [] =
        compactRemaining s i t0 rest := by
      rw [hqlevels]
      exact getD_set_self _ _ _ _ (by rw [List.length_set]; exact hlen)
    have hfinal : (s.compact_level i).levels.getD (i + 1) [] =
        sortByMinKey (compactRemaining s i t0 rest ++
          (merge_sstables (compactMid s i t0 rest)
            (compactInputs s i t0 rest) (i + 1)).1) := by
      rw [hLev, getD_set_self _ _ _ _ (by rw [hqlen]; exact hlen), hmidget]
    have hspan' : ∀ t ∈ t0 :: rest,
        t0.min_key ≤ t.min_key ∧ t.max_key ≤ compactSpanHi t0 rest := by
      intro t ht
      have := span_bound (t0 :: rest) hA (List.cons_ne_nil t0 rest) t ht
      simpa [compactSpanHi] using this
    have hremdisj : List.Pairwise tableDisj (compactRemaining s i t0 rest) :=
      List.Pairwise.sublist (List.filter_sublist _) hB.2.1
    have hpair : List.Pairwise tableDisj (compactRemaining s i t0 rest ++
        (merge_sstables (compactMid s i t0 rest)
          (compactInputs s i t0 rest) (i + 1)).1) := by
      rcases hm : mergedOf (compactInputs s i t0 rest) with _ | ⟨e, rest'⟩
      · rw [merge_sstables_out_nil _ _ _ hm, List.append_nil]
        exact hremdisj
      · rw [merge_sstables_out_cons _ _ _ e rest' hm, List.pairwise_append]
        refine ⟨hremdisj, List.pairwise_singleton _ _, ?_⟩
        intro r hr out hout
        rw [List.mem_singleton.mp hout]
        show ¬ ovl r.min_key r.max_key e.1
          ((e :: rest').getLast (List.cons_ne_nil e rest')).1
        have hrfilter : r ∈ (s.levels.getD (i + 1) []).filter
            (fun t => !(spanOverlap t0.min_key (compactSpanHi t0 rest) t)) := hr
        have hrspan : ¬ ovl t0.min_key (compactSpanHi t0 rest)
            r.min_key r.max_key := by
          have h2 := (List.mem_filter.mp hrfilter).2
          simp only [Bool.not_eq_true', ← Bool.not_eq_true] at h2
          intro hcon
          exact (h2 ((spanOverlap_iff_ovl _ _ _).mpr hcon)).elim
        have hrspan' : ¬ ovl r.min_key r.max_key t0.min_key
            (compactSpanHi t0 rest) :=
          fun h => hrspan ((ovl_comm _ _ _ _).mp h)
        have hts : ∀ t ∈ compactInputs s i t0 rest,
            ¬ ovl r.min_key r.max_key t.min_key t.max_key ∧
            ovl t0.min_key (compactSpanHi t0 rest) t.min_key t.max_key := by
          intro t ht
          rcases List.mem_append.mp ht with h1 | h1
          · have hb := hspan' t h1
            have hwf := (hA.2.2 t h1).1
            constructor
            · intro hcon
              exact hrspan' (ovl_widen _ _ _ _ _ _ hcon hb.1 hb.2)
            · exact (ovl_iff_common _ _ _ _).mpr
                ⟨t.min_key, hb.1, le_trans hwf hb.2, le_refl _, hwf⟩
          · constructor
            · have hdisj := pairwise_filter_split
                (fun h => tableDisj_symm h) (s.levels.getD (i + 1) [])
                (fun t => spanOverlap t0.min_key (compactSpanHi t0 rest) t)
                hB.2.1 h1 hrfilter
              exact tableDisj_symm hdisj
            · exact (spanOverlap_iff_ovl _ _ _).mp (List.mem_filter.mp h1).2
        have hhull := hull_fold (compactInputs s i t0 rest)
          r.min_key r.max_key t0.min_key (compactSpanHi t0 rest) hrspan' hts
        have hkey : ∀ x ∈ mergedOf (compactInputs s i t0 rest),
            (compactInputs s i t0 rest).foldl
              (fun a t => min a t.min_key) t0.min_key ≤ x.1 ∧
            x.1 ≤ (compactInputs s i t0 rest).foldl
              (fun a t => max a t.max_key) (compactSpanHi t0 rest) := by
          intro x hx
          obtain ⟨t, ht, p, hp, hpk⟩ := mergedOf_mem_src _ x hx
          have htwf : t.min_key ≤ p.1 ∧ p.1 ≤ t.max_key := by
            rcases List.mem_append.mp ht with h1 | h1
            · exact (hA.2.2 t h1).2 p hp
            · exact (hB.2.2 t (List.mem_of_mem_filter h1)).2 p hp
          constructor
          · exact le_trans ((foldl_min_le _ _).2 t ht) (hpk ▸ htwf.1)
          · exact le_trans (hpk ▸ htwf.2) ((le_foldl_max _ _).2 t ht)
        intro hcon
        have he := hkey e (by rw [hm]; exact List.mem_cons_self _ _)
        have hlast := hkey ((e :: rest').getLast (List.cons_ne_nil e rest'))
          (by rw [hm]; exact List.getLast_mem _)
        exact hhull (ovl_widen _ _ _ _ _ _ hcon he.1 hlast.2)
    refine ⟨⟨?_, ?_⟩, ?_, ?_⟩
    · rw [hfinal]
      exact sortByMinKey_sorted _
    · rw [hfinal]
      exact sortByMinKey_pairwise_disj _ hpair
    · intro hne t ht
      have := span_bound (t0 :: rest) hA hne t ht
      exact this
    · intro j hj1 hj2
      rw [hLev, getD_set_same_ne _ _ _ _ _ (Ne.symm hj2), hqlevels,
        getD_set_same_ne _ _ _ _ _ (Ne.symm hj2),
        getD_set_same_ne _ _ _ _ _ (Ne.symm hj1)]

instance : DecidableRel (tableDisj (K := K)) := fun a b => by
  unfold tableDisj ovl
  infer_instance

instance (l : List (SSTable K)) : Decidable (levelWF l) := by
  unfold levelWF
  infer_instance

/-- A concrete well-formed state for the C2 witness: level 1 holds tables
`[2,4]` and `[10,12]` (sorted, disjoint); level 2 holds `[3,5]` and
`[20,30]` (sorted, disjoint). -/
def sC2w : StorageEngine Nat :=
  { active_memtable := MemTable.init, immutable_memtable := none,
    levels :=
      [[],
       [{ level := 1, id := 4, min_key := 2, max_key := 4,
          index := [(2, ⟨2, "a", 11, false⟩), (4, ⟨4, "b", 12, false⟩)],
          bloom := some [2, 4] },
        { level := 1, id := 5, min_key := 10, max_key := 12,
          index := [(10, ⟨10, "c", 13, false⟩), (12, ⟨12, "d", 14, false⟩)],
          bloom := some [10, 12] }],
       [{ level := 2, id := 6, min_key := 3, max_key := 5,
          index := [(3, ⟨3, "e", 1, false⟩), (5, ⟨5, "f", 2, false⟩)],
          bloom := some [3, 5] },
        { level := 2, id := 7, min_key := 20, max_key := 30,
          index := [(20, ⟨20, "g", 3, false⟩), (30, ⟨30, "h", 4, false⟩)],
          bloom := some [20, 30] }], [], [], [], []],
    next_timestamp := 50, cache_list := [], wal := [] }

/-- Witness for the amended C2 at a concrete state: compacting the sorted,
disjoint level 1 into level 2 leaves level 2 sorted by `min_key` and
pairwise disjoint. -/
theorem C2_compaction_witness :
    levelWF (sC2w.levels.getD 1 []) ∧ levelWF (sC2w.levels.getD 2 []) ∧
    List.Pairwise (fun a b : SSTable Nat => a.min_key ≤ b.min_key)
      ((sC2w.compact_level 1).levels.getD 2 []) ∧
    List.Pairwise tableDisj ((sC2w.compact_level 1).levels.getD 2 []) :=
  ⟨by decide, by decide,
   ((C2_compaction_level_invariant sC2w 1 (by decide) (by decide) (by decide)).1).1,
   ((C2_compaction_level_invariant sC2w 1 (by decide) (by decide) (by decide)).1).2⟩

end BlinkDB
